import Mathlib

/-!
Verification of the trigger-score engine of `dephammer` (`src/main.rs`).

The engine is shallowly embedded: Rust `HashMap`s threaded through the
recursion become explicit function-valued maps passed and returned, the
unbounded Rust recursion becomes a fuel-indexed recursion (`fuelOut` marks
fuel exhaustion, which a terminating execution never reaches given enough
fuel), Rust `Result::Err` becomes `RRes.err`, and a Rust panic (out-of-bounds
indexing / slicing) becomes `RRes.panicked`.  Strings are modelled as their
character sequences; Rust byte indices are modelled as character indices
(faithful for ASCII labels).

The `bazel` and `git` modules are not part of the sources; the data types
`BazelDependencyGraph` (field `rules_by_label`) and `GitRepo` (field `files`,
per-file `commit_history`) are reconstructed from their uses in `main.rs`,
and `get_source_files` is modelled from the specification (see its
doc comment).
-/

/-- Character-list prefix test (models Rust `str::starts_with`). -/
def chPrefix : List Char → List Char → Bool
  | [], _ => true
  | _ :: _, [] => false
  | a :: as, b :: bs => a = b && chPrefix as bs

/-- Models Rust `s.starts_with(p)`. -/
def strStartsWith (s p : String) : Bool :=
  chPrefix p.data s.data

/-- Models Rust `s.ends_with(p)`. -/
def strEndsWith (s p : String) : Bool :=
  chPrefix p.data.reverse s.data.reverse

/-- Models Rust `s.len()` (character count; bytes for ASCII). -/
def strLen (s : String) : Nat :=
  s.data.length

/-- Models Rust `&s[..n]` for a valid index. -/
def strTake (s : String) (n : Nat) : String :=
  String.mk (s.data.take n)

/-- Models Rust `&s[n..]` for a valid index. -/
def strDrop (s : String) (n : Nat) : String :=
  String.mk (s.data.drop n)

/-- Models Rust `s.split(c)`: splits a character list at every occurrence of
`c`, keeping empty segments (`split` on `":"` yields `["", ""]`). -/
def splitChars (c : Char) : List Char → List (List Char)
  | [] => [[]]
  | x :: xs =>
    if x = c then [] :: splitChars c xs
    else
      match splitChars c xs with
      | [] => [[x]]
      | seg :: rest => (x :: seg) :: rest

/-- Outcome of running a fragment of the embedded program.  `ok` is a normal
return, `err` a Rust `Result::Err` propagated with `?`, `panicked` a Rust
panic (out-of-bounds indexing or slicing), and `fuelOut` exhaustion of the
recursion fuel of the embedding. -/
inductive RRes (α : Type) where
  | ok (a : α)
  | err (msg : String)
  | panicked (msg : String)
  | fuelOut
deriving DecidableEq

/-- The per-target record produced by map mode (struct `Target` in
`main.rs`). -/
structure Target where
  name : String
  rebuilds : Nat
  dependents : Nat
  score : Nat
deriving DecidableEq

/-- One node of the dependency graph: dependency edges and source-file
labels (reconstructed from the uses `rule.dep_targets` and
`rule.source_files` in `main.rs`). -/
structure Rule where
  dep_targets : List String
  source_files : List String
deriving DecidableEq

/-- The dependency graph: a map from label to rule, modelled as an
association list (first binding wins, as for unique `HashMap` keys). -/
structure BazelDependencyGraph where
  rules_by_label : List (String × Rule)
deriving DecidableEq

/-- Per-file change history (reconstructed from `file.commit_history` in
`main.rs`). -/
structure GitFile where
  commit_history : List String
deriving DecidableEq

/-- The change history: a map from repository-relative path to file record,
modelled as an association list. -/
structure GitRepo where
  files : List (String × GitFile)
deriving DecidableEq

/-- Association-list lookup (models `HashMap::get`). -/
def alookup {β : Type} : List (String × β) → String → Option β
  | [], _ => none
  | (k, v) :: rest, t => if k = t then some v else alookup rest t

/-- `deps_graph.rules_by_label.get(target)`. -/
def rulesGet (g : BazelDependencyGraph) (t : String) : Option Rule :=
  alookup g.rules_by_label t

/-- The set of change identifiers recorded for `path`
(`repo.files.get(path)`, empty when absent). -/
def fileCommits (repo : GitRepo) (path : String) : Finset String :=
  match alookup repo.files path with
  | some f => f.commit_history.toFinset
  | none => ∅

/-- One iteration of the source-file loop shared by both modes
(`main.rs` lines 338-350 and 447-459): skip external `@` labels, split at
`:`, join the first two segments with `/` (Rust `parts[0]`/`parts[1]` panic
when there is no separator), drop the first two characters (Rust `[2..]`
panics when the joined string is shorter), and look the result up in the
history. -/
def srcStep (repo : GitRepo) (sf : String) : RRes (Finset String) :=
  if strStartsWith sf "@" then .ok ∅
  else if (splitChars ':' sf.data).length < 2 then .panicked "index out of bounds"
  else if ((splitChars ':' sf.data).getD 0 [] ++ '/' :: (splitChars ':' sf.data).getD 1 []).length < 2 then
    .panicked "byte index out of bounds"
  else
    .ok (fileCommits repo (String.mk
      (((splitChars ':' sf.data).getD 0 [] ++ '/' :: (splitChars ':' sf.data).getD 1 []).drop 2)))

/-- The source-file loop: folds `srcStep` over the file labels, unioning the
found histories into the accumulator set. -/
def sourceCommits (repo : GitRepo) : List String → Finset String → RRes (Finset String)
  | [], acc => .ok acc
  | sf :: rest, acc =>
    match srcStep repo sf with
    | .ok c => sourceCommits repo rest (acc ∪ c)
    | .err e => .err e
    | .panicked e => .panicked e
    | .fuelOut => .fuelOut

/-- The `commits_by_target` memo table. -/
abbrev Memo := String → Option (Finset String)

/-- The `score_by_target` result table. -/
abbrev Scores := String → Option Target

/-- `HashMap::insert`. -/
def setk {β : Type} (m : String → Option β) (k : String) (v : β) : String → Option β :=
  fun u => if u = k then some v else m u

/-- `score_by_target.entry(d).and_modify(|t| t.dependents += 1)`: increments
`dependents` when a record exists, and does nothing otherwise. -/
def bump (s : Scores) (k : String) : Scores :=
  fun u => if u = k then (s u).map (fun t => { t with dependents := t.dependents + 1 }) else s u

/-- The dependency loop of `calculate_trigger_scores_map_inner`
(`main.rs` lines 435-446): for each dependency edge, recurse via `f`, union
the returned change set into the accumulator, then increment the
dependency's `dependents` record. -/
def innerDeps (f : String → Memo → Scores → RRes (Finset String × Memo × Scores)) :
    List String → Memo → Scores → Finset String → RRes (Finset String × Memo × Scores)
  | [], m, s, acc => .ok (acc, m, s)
  | d :: ds, m, s, acc =>
    match f d m s with
    | .ok (c, m', s') => innerDeps f ds m' (bump s' d) (acc ∪ c)
    | .err e => .err e
    | .panicked e => .panicked e
    | .fuelOut => .fuelOut

/-- `calculate_trigger_scores_map_inner` (`main.rs` lines 420-472), with
explicit fuel for the Rust recursion: memo hit returns at once; otherwise
the rule is looked up (`Err` when absent), the dependency loop and the
source-file loop accumulate change identifiers, and finally a fresh record
(`dependents = 1`, `score = 0`) plus the memo entry are inserted. -/
def calculate_trigger_scores_map_inner (repo : GitRepo) (g : BazelDependencyGraph) :
    Nat → String → Memo → Scores → RRes (Finset String × Memo × Scores)
  | 0, _, _, _ => .fuelOut
  | fuel + 1, target, memo, scores =>
    match memo target with
    | some c => .ok (c, memo, scores)
    | none =>
      match rulesGet g target with
      | none => .err ("target " ++ target ++ " not found in dependency graph")
      | some rule =>
        match innerDeps (calculate_trigger_scores_map_inner repo g fuel)
            rule.dep_targets memo scores ∅ with
        | .ok (all, m, s) =>
          match sourceCommits repo rule.source_files all with
          | .ok all2 =>
            .ok (all2, setk m target all2, setk s target ⟨target, all2.card, 1, 0⟩)
          | .err e => .err e
          | .panicked e => .panicked e
          | .fuelOut => .fuelOut
        | .err e => .err e
        | .panicked e => .panicked e
        | .fuelOut => .fuelOut

/-- Root selection of `calculate_trigger_scores_map` (`main.rs` lines
391-405): a target ending in `...` takes every graph key starting with
`target[..target.len() - 4]` as a root (Rust subtraction/slicing panics when
the target is shorter than 4 characters); any other target is the sole
root. -/
def computeRoots (g : BazelDependencyGraph) (target : String) : RRes (List String) :=
  if strEndsWith target "..." then
    if strLen target < 4 then .panicked "attempt to subtract with overflow"
    else
      let pre := strTake target (strLen target - 4)
      .ok ((g.rules_by_label.filter (fun p => strStartsWith p.1 pre)).map (fun p => p.1))
  else .ok [target]

/-- The loop over roots: each root is traversed with the shared memo and
result tables, any failure aborting the run. -/
def processRoots (repo : GitRepo) (g : BazelDependencyGraph) (fuel : Nat) :
    List String → Memo → Scores → RRes (Memo × Scores)
  | [], m, s => .ok (m, s)
  | r :: rs, m, s =>
    match calculate_trigger_scores_map_inner repo g fuel r m s with
    | .ok (_, m', s') => processRoots repo g fuel rs m' s'
    | .err e => .err e
    | .panicked e => .panicked e
    | .fuelOut => .fuelOut

/-- The final pass of `calculate_trigger_scores_map` (`main.rs` lines
414-416): `target.score = target.rebuilds * target.dependents` on every
record. -/
def finalizeScores (s : Scores) : Scores :=
  fun u => (s u).map (fun t => { t with score := t.rebuilds * t.dependents })

/-- The run after root selection: traverse every root from empty tables,
then apply the final scoring pass. -/
def mapOverRoots (fuel : Nat) (roots : List String) (repo : GitRepo)
    (g : BazelDependencyGraph) : RRes Scores :=
  match processRoots repo g fuel roots (fun _ => none) (fun _ => none) with
  | .ok (_, s) => .ok (finalizeScores s)
  | .err e => .err e
  | .panicked e => .panicked e
  | .fuelOut => .fuelOut

/-- `calculate_trigger_scores_map` (`main.rs` lines 384-418). -/
def calculate_trigger_scores_map (fuel : Nat) (target : String) (repo : GitRepo)
    (g : BazelDependencyGraph) : RRes Scores :=
  match computeRoots g target with
  | .ok roots => mapOverRoots fuel roots repo g
  | .err e => .err e
  | .panicked e => .panicked e
  | .fuelOut => .fuelOut

/-- First-occurrence deduplication of a label list. -/
def dedup : List String → List String
  | [] => []
  | x :: xs => x :: (dedup xs).filter (fun y => y ≠ x)

/-- Flattening loop used by the modelled transitive source-file query. -/
def gsfList (f : String → RRes (List String)) : List String → RRes (List String)
  | [] => .ok []
  | d :: ds =>
    match f d with
    | .ok l =>
      match gsfList f ds with
      | .ok ls => .ok (l ++ ls)
      | .err e => .err e
      | .panicked e => .panicked e
      | .fuelOut => .fuelOut
    | .err e => .err e
    | .panicked e => .panicked e
    | .fuelOut => .fuelOut

/-- Raw (undeduplicated) transitive source files: the rule's own source
files followed by those of everything it depends on, a missing target
failing the run. -/
def gsfRaw (g : BazelDependencyGraph) : Nat → String → RRes (List String)
  | 0, _ => .fuelOut
  | fuel + 1, t =>
    match rulesGet g t with
    | none => .err ("target " ++ t ++ " not found in dependency graph")
    | some rule =>
      match gsfList (gsfRaw g fuel) rule.dep_targets with
      | .ok ls => .ok (rule.source_files ++ ls)
      | .err e => .err e
      | .panicked e => .panicked e
      | .fuelOut => .fuelOut

/-- Modelled from the spec: `bazel::BazelDependencyGraph::get_source_files`
(module `bazel` is not among the sources).  Spec §3/§6: the graph "provides
a transitive source files of target X query (flattens source files of X and
everything X depends on, deduplicated)"; spec §7: a root with no rule in the
graph fails the whole run. -/
def get_source_files (fuel : Nat) (g : BazelDependencyGraph) (target : String) :
    RRes (List String) :=
  match gsfRaw g fuel target with
  | .ok l => .ok (dedup l)
  | .err e => .err e
  | .panicked e => .panicked e
  | .fuelOut => .fuelOut

/-- `calculate_trigger_scores` (`main.rs` lines 329-353): query the
transitive source files, run the shared source-file loop over them from the
empty set, and return the cardinality of the accumulated change set. -/
def calculate_trigger_scores (fuel : Nat) (target : String) (repo : GitRepo)
    (g : BazelDependencyGraph) : RRes Nat :=
  match get_source_files fuel g target with
  | .ok files =>
    match sourceCommits repo files ∅ with
    | .ok all => .ok all.card
    | .err e => .err e
    | .panicked e => .panicked e
    | .fuelOut => .fuelOut
  | .err e => .err e
  | .panicked e => .panicked e
  | .fuelOut => .fuelOut

/-- Removes the external (`@`-prefixed) source-file labels of a rule. -/
def stripRule (r : Rule) : Rule :=
  ⟨r.dep_targets, r.source_files.filter (fun sf => !strStartsWith sf "@")⟩

/-- Removes every external (`@`-prefixed) source-file label from every rule
of the graph, leaving edges and keys untouched. -/
def stripExternal (g : BazelDependencyGraph) : BazelDependencyGraph :=
  ⟨g.rules_by_label.map (fun p => (p.1, stripRule p.2))⟩

/-! ## Semantic layer

Order-free descriptions of what the traversal computes, used to state and
prove the claims: the contribution of one source-file label, the semantic
transitive change set of a target, ranked acyclicity, reachability, and the
characterization of the engine's intermediate tables as a function of the
set of already-processed targets. -/

/-- A source-file label that the source loop accepts without panicking:
either external (skipped) or parseable into the two-part form with a joined
path of at least two characters. -/
def srcOk (sf : String) : Bool :=
  strStartsWith sf "@" ||
    (decide (2 ≤ (splitChars ':' sf.data).length) &&
      decide (2 ≤ ((splitChars ':' sf.data).getD 0 [] ++ '/' :: (splitChars ':' sf.data).getD 1 []).length))

/-- The change identifiers one source-file label contributes: none for an
external label, the history of its resolved path otherwise (junk value on a
label that would panic; only used beneath `srcOk`). -/
def srcContrib (repo : GitRepo) (sf : String) : Finset String :=
  if strStartsWith sf "@" then ∅
  else
    fileCommits repo (String.mk
      (((splitChars ':' sf.data).getD 0 [] ++ '/' :: (splitChars ':' sf.data).getD 1 []).drop 2))

/-- Union of the contributions of a list of source-file labels. -/
def listSrc (repo : GitRepo) (files : List String) : Finset String :=
  files.foldr (fun sf s => srcContrib repo sf ∪ s) ∅

/-- Fuel-indexed semantic transitive change set of a target: its own source
contributions plus those of everything it depends on. -/
def semCFuel (repo : GitRepo) (g : BazelDependencyGraph) : Nat → String → Finset String
  | 0, _ => ∅
  | fuel + 1, t =>
    match rulesGet g t with
    | none => ∅
    | some rule =>
      rule.dep_targets.foldr (fun d s => semCFuel repo g fuel d ∪ s)
        (listSrc repo rule.source_files)

/-- `rank` witnesses acyclicity of the graph: every dependency edge strictly
decreases the rank. -/
def RankedBy (g : BazelDependencyGraph) (rank : String → Nat) : Prop :=
  ∀ t r, rulesGet g t = some r → ∀ d ∈ r.dep_targets, rank d < rank t

/-- Stable semantic transitive change set of a target (any fuel above the
target's rank computes it). -/
def semC (repo : GitRepo) (g : BazelDependencyGraph) (rank : String → Nat) (t : String) :
    Finset String :=
  semCFuel repo g (rank t + 1) t

/-- `Reaches g t u`: `u` is reachable from `t` along dependency edges
(reflexively). -/
inductive Reaches (g : BazelDependencyGraph) : String → String → Prop where
  | refl (t : String) : Reaches g t t
  | step {t d u : String} {r : Rule} (hr : rulesGet g t = some r)
      (hd : d ∈ r.dep_targets) (h : Reaches g d u) : Reaches g t u

/-- Everything reachable from `t` has a rule in the graph whose source-file
labels are all parseable: the traversal of `t` completes without error. -/
def WFt (g : BazelDependencyGraph) (t : String) : Prop :=
  ∀ u, Reaches g t u →
    ∃ r, rulesGet g u = some r ∧ ∀ sf ∈ r.source_files, srcOk sf = true

/-- A processed set is closed under dependency edges and only holds targets
with rules. -/
def DownClosed (g : BazelDependencyGraph) (D : Finset String) : Prop :=
  ∀ p ∈ D, ∃ r, rulesGet g p = some r ∧ ∀ d ∈ r.dep_targets, d ∈ D

/-- Occurrences of `u` in a label list. -/
def occs (u : String) : List String → Nat
  | [] => 0
  | x :: xs => (if x = u then 1 else 0) + occs u xs

/-- Number of dependency edges from `p` into `u`. -/
def depCnt (g : BazelDependencyGraph) (p u : String) : Nat :=
  match rulesGet g p with
  | none => 0
  | some r => occs u r.dep_targets

/-- Total number of dependency edges into `u` from members of `D`. -/
def edgesInto (g : BazelDependencyGraph) (D : Finset String) (u : String) : Nat :=
  D.sum (fun p => depCnt g p u)

/-- The memo table after processing exactly the targets of `D`. -/
def memoOf (repo : GitRepo) (g : BazelDependencyGraph) (rank : String → Nat)
    (D : Finset String) : Memo :=
  fun u => if u ∈ D then some (semC repo g rank u) else none

/-- The result table after processing exactly the targets of `D`, with
`extra` pending dependents increments from the partially processed
dependency loops of the ancestors of the current call. -/
def scoresOf (repo : GitRepo) (g : BazelDependencyGraph) (rank : String → Nat)
    (D : Finset String) (extra : String → Nat) : Scores :=
  fun u =>
    if u ∈ D then
      some ⟨u, (semC repo g rank u).card, 1 + edgesInto g D u + extra u, 0⟩
    else none

/-! ## Basic lemmas -/

theorem srcStep_of_external (repo : GitRepo) (sf : String)
    (h : strStartsWith sf "@" = true) : srcStep repo sf = .ok ∅ := by
  simp [srcStep, h]

theorem srcStep_of_srcOk (repo : GitRepo) (sf : String) (h : srcOk sf = true) :
    srcStep repo sf = .ok (srcContrib repo sf) := by
  unfold srcOk at h
  cases hsw : strStartsWith sf "@" with
  | true => simp [srcStep, srcContrib, hsw]
  | false =>
    rw [hsw] at h
    simp only [Bool.false_or, Bool.and_eq_true, decide_eq_true_eq] at h
    rw [srcStep, if_neg (by simp [hsw]), if_neg (Nat.not_lt.mpr h.1),
      if_neg (Nat.not_lt.mpr h.2), srcContrib, if_neg (by simp [hsw])]

theorem srcStep_ne_fuelOut (repo : GitRepo) (sf : String) :
    srcStep repo sf ≠ .fuelOut := by
  unfold srcStep
  split
  · simp
  · split
    · simp
    · split
      · simp
      · simp

theorem listSrc_nil (repo : GitRepo) : listSrc repo [] = ∅ := rfl

theorem listSrc_cons (repo : GitRepo) (sf : String) (rest : List String) :
    listSrc repo (sf :: rest) = srcContrib repo sf ∪ listSrc repo rest := rfl

theorem sourceCommits_of_srcOk (repo : GitRepo) :
    ∀ (files : List String) (acc : Finset String), (∀ sf ∈ files, srcOk sf = true) →
      sourceCommits repo files acc = .ok (acc ∪ listSrc repo files) := by
  intro files
  induction files with
  | nil => intro acc _; simp [sourceCommits, listSrc]
  | cons sf rest ih =>
    intro acc h
    have hs := srcStep_of_srcOk repo sf (h sf (List.mem_cons_self sf rest))
    simp only [sourceCommits, hs]
    rw [ih (acc ∪ srcContrib repo sf) (fun x hx => h x (List.mem_cons_of_mem sf hx))]
    rw [listSrc_cons, Finset.union_assoc]

theorem sourceCommits_ne_fuelOut (repo : GitRepo) :
    ∀ (files : List String) (acc : Finset String), sourceCommits repo files acc ≠ .fuelOut := by
  intro files
  induction files with
  | nil => intro acc; simp [sourceCommits]
  | cons sf rest ih =>
    intro acc
    rw [sourceCommits]
    cases h : srcStep repo sf with
    | ok c => exact ih (acc ∪ c)
    | err e => simp
    | panicked e => simp
    | fuelOut => exact absurd h (srcStep_ne_fuelOut repo sf)

theorem foldr_union_init (F : String → Finset String) (init : Finset String) :
    ∀ ds : List String,
      ds.foldr (fun d s => F d ∪ s) init = ds.foldr (fun d s => F d ∪ s) ∅ ∪ init := by
  intro ds
  induction ds with
  | nil => simp
  | cons d rest ih => simp [List.foldr_cons, ih, Finset.union_assoc]

theorem foldr_union_congr {F G : String → Finset String} (init : Finset String)
    (ds : List String) (h : ∀ d ∈ ds, F d = G d) :
    ds.foldr (fun d s => F d ∪ s) init = ds.foldr (fun d s => G d ∪ s) init := by
  induction ds with
  | nil => rfl
  | cons d rest ih =>
    simp only [List.foldr_cons]
    rw [h d (List.mem_cons_self d rest), ih (fun x hx => h x (List.mem_cons_of_mem d hx))]

theorem occs_eq_zero_of_not_mem {u : String} {l : List String} (h : u ∉ l) :
    occs u l = 0 := by
  induction l with
  | nil => rfl
  | cons x xs ih =>
    rw [occs, ih (fun hx => h (List.mem_cons_of_mem x hx)), if_neg, Nat.zero_add]
    intro hx
    exact h (hx ▸ List.mem_cons_self x xs)

theorem mem_of_occs_ne_zero {u : String} {l : List String} (h : occs u l ≠ 0) : u ∈ l := by
  by_contra hc
  exact h (occs_eq_zero_of_not_mem hc)

theorem semCFuel_stable (repo : GitRepo) (g : BazelDependencyGraph) (rank : String → Nat)
    (hrank : RankedBy g rank) :
    ∀ fuel t, rank t < fuel → semCFuel repo g fuel t = semC repo g rank t := by
  intro fuel
  induction fuel using Nat.strong_induction_on with
  | _ fuel ih =>
    intro t ht
    match fuel with
    | 0 => omega
    | fuel + 1 =>
      unfold semC
      rw [semCFuel, semCFuel]
      cases hr : rulesGet g t with
      | none => rfl
      | some rule =>
        apply foldr_union_congr
        intro d hd
        have hdt : rank d < rank t := hrank t rule hr d hd
        rw [ih fuel (Nat.lt_succ_self fuel) d (by omega),
          ih (rank t) (by omega) d hdt]

theorem reaches_rank_le (g : BazelDependencyGraph) (rank : String → Nat)
    (hrank : RankedBy g rank) {t u : String} (h : Reaches g t u) : rank u ≤ rank t := by
  induction h with
  | refl t => exact Nat.le_refl _
  | step hr hd h ih => exact Nat.le_of_lt (Nat.lt_of_le_of_lt ih (hrank _ _ hr _ hd))

theorem wft_step (g : BazelDependencyGraph) {t d : String} {r : Rule} (hwf : WFt g t)
    (hr : rulesGet g t = some r) (hd : d ∈ r.dep_targets) : WFt g d :=
  fun u hu => hwf u (Reaches.step hr hd hu)

theorem downClosed_reach (g : BazelDependencyGraph) {D : Finset String}
    (hD : DownClosed g D) : ∀ {t u : String}, Reaches g t u → t ∈ D → u ∈ D := by
  intro t u h
  induction h with
  | refl t => exact id
  | step hr hd h ih =>
    intro ht
    obtain ⟨r', hr', hdeps⟩ := hD _ ht
    rw [hr] at hr'
    cases hr'
    exact ih (hdeps _ hd)

/-! ## State-table lemmas -/

theorem memoOf_empty (repo : GitRepo) (g : BazelDependencyGraph) (rank : String → Nat) :
    (fun _ => none : Memo) = memoOf repo g rank ∅ := by
  funext u
  simp [memoOf]

theorem scoresOf_empty (repo : GitRepo) (g : BazelDependencyGraph) (rank : String → Nat)
    (extra : String → Nat) : (fun _ => none : Scores) = scoresOf repo g rank ∅ extra := by
  funext u
  simp [scoresOf]

theorem scoresOf_congr (repo : GitRepo) (g : BazelDependencyGraph) (rank : String → Nat)
    (D : Finset String) {e1 e2 : String → Nat} (h : ∀ u, e1 u = e2 u) :
    scoresOf repo g rank D e1 = scoresOf repo g rank D e2 := by
  funext u
  simp [scoresOf, h u]

theorem memoOf_mem (repo : GitRepo) (g : BazelDependencyGraph) (rank : String → Nat)
    {D : Finset String} {t : String} (h : t ∈ D) :
    memoOf repo g rank D t = some (semC repo g rank t) := by
  simp [memoOf, h]

theorem memoOf_not_mem (repo : GitRepo) (g : BazelDependencyGraph) (rank : String → Nat)
    {D : Finset String} {t : String} (h : t ∉ D) : memoOf repo g rank D t = none := by
  simp [memoOf, h]

theorem bump_scoresOf (repo : GitRepo) (g : BazelDependencyGraph) (rank : String → Nat)
    {D : Finset String} {k : String} (extra : String → Nat) (h : k ∈ D) :
    bump (scoresOf repo g rank D extra) k =
      scoresOf repo g rank D (fun u => extra u + if u = k then 1 else 0) := by
  funext u
  by_cases hu : u = k
  · subst hu
    simp only [bump, scoresOf, if_pos rfl, if_pos h, Option.map_some]
    have : 1 + edgesInto g D u + extra u + 1 = 1 + edgesInto g D u + (extra u + 1) := by omega
    simp [this]
  · simp only [bump, scoresOf, if_neg hu]
    by_cases hD : u ∈ D <;> simp [hD]

theorem setk_memoOf (repo : GitRepo) (g : BazelDependencyGraph) (rank : String → Nat)
    (D : Finset String) (t : String) :
    setk (memoOf repo g rank D) t (semC repo g rank t) = memoOf repo g rank (insert t D) := by
  funext u
  by_cases hu : u = t
  · subst hu
    simp [setk, memoOf]
  · simp [setk, memoOf, hu]

theorem setk_scoresOf (repo : GitRepo) (g : BazelDependencyGraph) (rank : String → Nat)
    {D : Finset String} {t : String} {rule : Rule} (extra : String → Nat)
    (htD : t ∉ D) (hex : extra t = 0) (hrule : rulesGet g t = some rule)
    (hself : occs t rule.dep_targets = 0)
    (hnoedge : ∀ p ∈ D, depCnt g p t = 0) :
    setk (scoresOf repo g rank D (fun u => extra u + occs u rule.dep_targets)) t
        ⟨t, (semC repo g rank t).card, 1, 0⟩ =
      scoresOf repo g rank (insert t D) extra := by
  funext u
  have hselfCnt : depCnt g t t = 0 := by
    simp only [depCnt, hrule]
    exact hself
  by_cases hu : u = t
  · subst hu
    have hedges : edgesInto g (insert u D) u = 0 := by
      rw [edgesInto, Finset.sum_insert htD, hselfCnt, Finset.sum_eq_zero hnoedge]
      rfl
    simp [setk, scoresOf, Finset.mem_insert_self, hedges, hex]
  · simp only [setk, if_neg hu, scoresOf]
    by_cases hD : u ∈ D
    · have hins : u ∈ insert t D := Finset.mem_insert_of_mem hD
      have hedges : edgesInto g (insert t D) u = edgesInto g D u + occs u rule.dep_targets := by
        have hcnt : depCnt g t u = occs u rule.dep_targets := by
          simp only [depCnt, hrule]
        rw [edgesInto, Finset.sum_insert htD, hcnt, edgesInto, Nat.add_comm]
      simp only [if_pos hD, if_pos hins, hedges]
      have harith : 1 + edgesInto g D u + (extra u + occs u rule.dep_targets) =
          1 + (edgesInto g D u + occs u rule.dep_targets) + extra u := by omega
      simp [harith]
    · simp [Finset.mem_insert, hu, hD]

/-! ## Generic loop lemmas -/

theorem innerDeps_ext {f f' : String → Memo → Scores → RRes (Finset String × Memo × Scores)}
    (h : ∀ d m s, f d m s = f' d m s) :
    ∀ (ds : List String) (m : Memo) (s : Scores) (acc : Finset String),
      innerDeps f ds m s acc = innerDeps f' ds m s acc := by
  intro ds
  induction ds with
  | nil => intro m s acc; rfl
  | cons d rest ih =>
    intro m s acc
    simp only [innerDeps, h d m s]
    cases f' d m s with
    | ok x =>
      obtain ⟨c, m', s'⟩ := x
      exact ih m' (bump s' d) (acc ∪ c)
    | err e => rfl
    | panicked e => rfl
    | fuelOut => rfl

theorem innerDeps_ne_fuelOut {f : String → Memo → Scores → RRes (Finset String × Memo × Scores)}
    {ds : List String} (h : ∀ d ∈ ds, ∀ m s, f d m s ≠ .fuelOut) :
    ∀ (m : Memo) (s : Scores) (acc : Finset String), innerDeps f ds m s acc ≠ .fuelOut := by
  induction ds with
  | nil => intro m s acc; simp [innerDeps]
  | cons d rest ih =>
    intro m s acc
    rw [innerDeps]
    cases hf : f d m s with
    | ok x =>
      obtain ⟨c, m', s'⟩ := x
      exact ih (fun x hx => h x (List.mem_cons_of_mem d hx)) m' (bump s' d) (acc ∪ c)
    | err e => simp
    | panicked e => simp
    | fuelOut => exact absurd hf (h d (List.mem_cons_self d rest) m s)

/-- The result-table invariant preserved by the whole run: every record has
`score = 0` and `dependents ≥ 1`. -/
def SInv (s : Scores) : Prop :=
  ∀ u rec, s u = some rec → rec.score = 0 ∧ 1 ≤ rec.dependents

theorem sInv_bump {s : Scores} (h : SInv s) (k : String) : SInv (bump s k) := by
  intro u rec hrec
  by_cases hu : u = k
  · subst hu
    rw [bump, if_pos rfl] at hrec
    cases hs : s u with
    | none => rw [hs] at hrec; simp at hrec
    | some t =>
      rw [hs] at hrec
      injection hrec with hrec
      obtain ⟨h1, h2⟩ := h u t hs
      subst hrec
      exact ⟨h1, Nat.le_add_left 1 t.dependents⟩
  · rw [bump, if_neg hu] at hrec
    exact h u rec hrec

theorem sInv_setk {s : Scores} (h : SInv s) (k : String) (c : Nat) :
    SInv (setk s k ⟨k, c, 1, 0⟩) := by
  intro u rec hrec
  by_cases hu : u = k
  · subst hu
    rw [setk, if_pos rfl] at hrec
    cases hrec
    exact ⟨rfl, Nat.le_refl 1⟩
  · rw [setk, if_neg hu] at hrec
    exact h u rec hrec

theorem innerDeps_sInv {f : String → Memo → Scores → RRes (Finset String × Memo × Scores)}
    (hf : ∀ d m s c m' s', f d m s = .ok (c, m', s') → SInv s → SInv s') :
    ∀ (ds : List String) (m : Memo) (s : Scores) (acc : Finset String) c m' s',
      innerDeps f ds m s acc = .ok (c, m', s') → SInv s → SInv s' := by
  intro ds
  induction ds with
  | nil =>
    intro m s acc c m' s' heq hs
    rw [innerDeps] at heq
    cases heq
    exact hs
  | cons d rest ih =>
    intro m s acc c m' s' heq hs
    rw [innerDeps] at heq
    cases hd : f d m s with
    | ok x =>
      obtain ⟨c0, m0, s0⟩ := x
      rw [hd] at heq
      exact ih m0 (bump s0 d) (acc ∪ c0) c m' s' heq (sInv_bump (hf d m s c0 m0 s0 hd hs) d)
    | err e => rw [hd] at heq; simp at heq
    | panicked e => rw [hd] at heq; simp at heq
    | fuelOut => rw [hd] at heq; simp at heq

/-! ## Termination and invariant preservation of the inner traversal -/

theorem inner_ne_fuelOut (repo : GitRepo) (g : BazelDependencyGraph) (rank : String → Nat)
    (hrank : RankedBy g rank) :
    ∀ fuel t m s, rank t < fuel →
      calculate_trigger_scores_map_inner repo g fuel t m s ≠ .fuelOut := by
  intro fuel
  induction fuel using Nat.strong_induction_on with
  | _ fuel ih =>
    intro t m s ht
    cases fuel with
    | zero => omega
    | succ n =>
      rw [calculate_trigger_scores_map_inner]
      cases hm : m t with
      | some c => simp
      | none =>
        cases hr : rulesGet g t with
        | none => simp
        | some rule =>
          have hnd : ∀ d ∈ rule.dep_targets, ∀ m' s',
              calculate_trigger_scores_map_inner repo g n d m' s' ≠ .fuelOut := by
            intro d hd m' s'
            have hlt : rank d < rank t := hrank t rule hr d hd
            exact ih n (Nat.lt_succ_self n) d m' s' (by omega)
          cases hdeps : innerDeps (calculate_trigger_scores_map_inner repo g n)
              rule.dep_targets m s ∅ with
          | ok x =>
            obtain ⟨all, m1, s1⟩ := x
            cases hsc : sourceCommits repo rule.source_files all with
            | ok all2 => simp [hdeps, hsc]
            | err e => simp [hdeps, hsc]
            | panicked e => simp [hdeps, hsc]
            | fuelOut => exact absurd hsc (sourceCommits_ne_fuelOut repo _ all)
          | err e => simp [hdeps]
          | panicked e => simp [hdeps]
          | fuelOut => exact absurd hdeps (innerDeps_ne_fuelOut hnd m s ∅)

theorem inner_sInv (repo : GitRepo) (g : BazelDependencyGraph) :
    ∀ fuel t m s c m' s',
      calculate_trigger_scores_map_inner repo g fuel t m s = .ok (c, m', s') →
      SInv s → SInv s' := by
  intro fuel
  induction fuel using Nat.strong_induction_on with
  | _ fuel ih =>
    intro t m s c m' s' heq hs
    cases fuel with
    | zero =>
      rw [calculate_trigger_scores_map_inner] at heq
      exact absurd heq (by simp)
    | succ n =>
      rw [calculate_trigger_scores_map_inner] at heq
      cases hm : m t with
      | some c0 =>
        simp only [hm] at heq
        cases heq
        exact hs
      | none =>
        simp only [hm] at heq
        cases hr : rulesGet g t with
        | none => simp [hr] at heq
        | some rule =>
          simp only [hr] at heq
          cases hdeps : innerDeps (calculate_trigger_scores_map_inner repo g n)
              rule.dep_targets m s ∅ with
          | ok x =>
            obtain ⟨all, m1, s1⟩ := x
            simp only [hdeps] at heq
            have hs1 : SInv s1 :=
              innerDeps_sInv (fun d md sd cd md' sd' hd hsd =>
                ih n (Nat.lt_succ_self n) d md sd cd md' sd' hd hsd)
                rule.dep_targets m s ∅ all m1 s1 hdeps hs
            cases hsc : sourceCommits repo rule.source_files all with
            | ok all2 =>
              simp only [hsc] at heq
              cases heq
              exact sInv_setk hs1 t _
            | err e => simp [hsc] at heq
            | panicked e => simp [hsc] at heq
            | fuelOut => simp [hsc] at heq
          | err e => simp [hdeps] at heq
          | panicked e => simp [hdeps] at heq
          | fuelOut => simp [hdeps] at heq

/-! ## Characterization of the inner traversal

On a coherent state — memo and result tables describing exactly a
down-closed processed set `D`, plus pending `extra` increments owned by the
ancestors' partially processed dependency loops — a successful traversal of
`t` moves the processed set to `D ∪ reach(t)` and computes the semantic
change set of `t`. -/

theorem depCnt_edge {g : BazelDependencyGraph} {p u : String} (h : depCnt g p u ≠ 0) :
    ∃ rp, rulesGet g p = some rp ∧ u ∈ rp.dep_targets := by
  unfold depCnt at h
  cases hg : rulesGet g p with
  | none => rw [hg] at h; exact absurd rfl h
  | some rp =>
    rw [hg] at h
    exact ⟨rp, rfl, mem_of_occs_ne_zero h⟩

/-- Contract of the recursive callee of the dependency loop, at rank
bound `n`. -/
def InnerContract (repo : GitRepo) (g : BazelDependencyGraph) (rank : String → Nat) (n : Nat)
    (f : String → Memo → Scores → RRes (Finset String × Memo × Scores)) : Prop :=
  ∀ d (D : Finset String) (extra : String → Nat), rank d < n → WFt g d → DownClosed g D →
    (∀ u, extra u ≠ 0 → u ∈ D) →
    ∃ D', DownClosed g D' ∧ (∀ u, u ∈ D' ↔ u ∈ D ∨ Reaches g d u) ∧
      f d (memoOf repo g rank D) (scoresOf repo g rank D extra) =
        .ok (semC repo g rank d, memoOf repo g rank D', scoresOf repo g rank D' extra)

theorem innerDeps_char (repo : GitRepo) (g : BazelDependencyGraph) (rank : String → Nat)
    {n : Nat} {f : String → Memo → Scores → RRes (Finset String × Memo × Scores)}
    (hf : InnerContract repo g rank n f) :
    ∀ (ds : List String) (D : Finset String) (extra : String → Nat) (acc : Finset String),
      (∀ d ∈ ds, rank d < n ∧ WFt g d) → DownClosed g D →
      (∀ u, extra u ≠ 0 → u ∈ D) →
      ∃ D', DownClosed g D' ∧
        (∀ u, u ∈ D' ↔ u ∈ D ∨ ∃ d ∈ ds, Reaches g d u) ∧
        innerDeps f ds (memoOf repo g rank D) (scoresOf repo g rank D extra) acc =
          .ok (acc ∪ ds.foldr (fun d s => semC repo g rank d ∪ s) ∅,
            memoOf repo g rank D',
            scoresOf repo g rank D' (fun u => extra u + occs u ds)) := by
  intro ds
  induction ds with
  | nil =>
    intro D extra acc _ hD hex
    refine ⟨D, hD, fun u => by simp, ?_⟩
    rw [innerDeps]
    have h2 : scoresOf repo g rank D (fun u => extra u + occs u []) =
        scoresOf repo g rank D extra :=
      scoresOf_congr repo g rank D (fun u => by simp [occs])
    rw [h2]
    simp
  | cons d rest ih =>
    intro D extra acc hds hD hex
    obtain ⟨hdn, hdwf⟩ := hds d (List.mem_cons_self d rest)
    obtain ⟨D1, hD1, hmem1, heq1⟩ := hf d D extra hdn hdwf hD hex
    have hdD1 : d ∈ D1 := (hmem1 d).mpr (Or.inr (Reaches.refl d))
    have hDsub : ∀ u ∈ D, u ∈ D1 := fun u hu => (hmem1 u).mpr (Or.inl hu)
    have hex1 : ∀ u, (extra u + if u = d then 1 else 0) ≠ 0 → u ∈ D1 := by
      intro u hu
      by_cases hud : u = d
      · subst hud; exact hdD1
      · rw [if_neg hud, Nat.add_zero] at hu
        exact hDsub u (hex u hu)
    obtain ⟨D2, hD2, hmem2, heq2⟩ :=
      ih D1 (fun u => extra u + if u = d then 1 else 0) (acc ∪ semC repo g rank d)
        (fun x hx => hds x (List.mem_cons_of_mem d hx)) hD1 hex1
    refine ⟨D2, hD2, ?_, ?_⟩
    · intro u
      rw [hmem2 u]
      constructor
      · rintro (h1 | ⟨e, he, hr⟩)
        · rcases (hmem1 u).mp h1 with h | h
          · exact Or.inl h
          · exact Or.inr ⟨d, List.mem_cons_self d rest, h⟩
        · exact Or.inr ⟨e, List.mem_cons_of_mem d he, hr⟩
      · rintro (h1 | ⟨e, he, hr⟩)
        · exact Or.inl (hDsub u h1)
        · rcases List.mem_cons.mp he with rfl | he'
          · exact Or.inl ((hmem1 u).mpr (Or.inr hr))
          · exact Or.inr ⟨e, he', hr⟩
    · rw [innerDeps]
      simp only [heq1]
      rw [bump_scoresOf repo g rank extra hdD1, heq2]
      have hacc : (acc ∪ semC repo g rank d) ∪
          rest.foldr (fun e s => semC repo g rank e ∪ s) ∅ =
          acc ∪ (d :: rest).foldr (fun e s => semC repo g rank e ∪ s) ∅ := by
        simp [List.foldr_cons, Finset.union_assoc]
      have hsc : scoresOf repo g rank D2 (fun u => (extra u + if u = d then 1 else 0) + occs u rest) =
          scoresOf repo g rank D2 (fun u => extra u + occs u (d :: rest)) := by
        apply scoresOf_congr
        intro u
        by_cases hud : u = d
        · subst hud
          simp [occs]
          omega
        · have hdu : ¬(d = u) := fun hc => hud hc.symm
          simp [occs, hud, hdu]
      rw [hacc, hsc]

theorem inner_char (repo : GitRepo) (g : BazelDependencyGraph) (rank : String → Nat)
    (hrank : RankedBy g rank) :
    ∀ fuel, InnerContract repo g rank fuel (calculate_trigger_scores_map_inner repo g fuel) := by
  intro fuel
  induction fuel using Nat.strong_induction_on with
  | _ fuel ih =>
    intro t D extra ht hwf hD hex
    cases fuel with
    | zero => omega
    | succ n =>
      by_cases htD : t ∈ D
      · refine ⟨D, hD, ?_, ?_⟩
        · intro u
          constructor
          · exact Or.inl
          · rintro (h | h)
            · exact h
            · exact downClosed_reach g hD h htD
        · rw [calculate_trigger_scores_map_inner, memoOf_mem repo g rank htD]
      · obtain ⟨rule, hrule, hsrc⟩ := hwf t (Reaches.refl t)
        have hcontract : InnerContract repo g rank n (calculate_trigger_scores_map_inner repo g n) :=
          ih n (Nat.lt_succ_self n)
        have hds : ∀ d ∈ rule.dep_targets, rank d < n ∧ WFt g d := by
          intro d hd
          have hlt : rank d < rank t := hrank t rule hrule d hd
          exact ⟨by omega, wft_step g hwf hrule hd⟩
        obtain ⟨D1, hD1, hmem1, heq1⟩ :=
          innerDeps_char repo g rank hcontract rule.dep_targets D extra ∅ hds hD hex
        have htD1 : t ∉ D1 := by
          intro hc
          rcases (hmem1 t).mp hc with h | ⟨d, hd, hr⟩
          · exact htD h
          · have h1 : rank t ≤ rank d := reaches_rank_le g rank hrank hr
            have h2 : rank d < rank t := hrank t rule hrule d hd
            omega
        have hsemC : semC repo g rank t =
            rule.dep_targets.foldr (fun d s => semC repo g rank d ∪ s) ∅ ∪
              listSrc repo rule.source_files := by
          rw [semC, semCFuel]
          simp only [hrule]
          rw [foldr_union_congr (listSrc repo rule.source_files) rule.dep_targets
            (fun d hd => semCFuel_stable repo g rank hrank (rank t) d (hrank t rule hrule d hd))]
          rw [foldr_union_init]
        have hall2 : (∅ ∪ rule.dep_targets.foldr (fun d s => semC repo g rank d ∪ s) ∅) ∪
            listSrc repo rule.source_files = semC repo g rank t := by
          rw [Finset.empty_union, hsemC]
        have hscomm := sourceCommits_of_srcOk repo rule.source_files
          (∅ ∪ rule.dep_targets.foldr (fun d s => semC repo g rank d ∪ s) ∅) hsrc
        have hext : extra t = 0 := by
          by_contra h
          exact htD (hex t h)
        have hself : occs t rule.dep_targets = 0 := by
          apply occs_eq_zero_of_not_mem
          intro hc
          exact absurd (hrank t rule hrule t hc) (Nat.lt_irrefl (rank t))
        have hnoedge : ∀ p ∈ D1, depCnt g p t = 0 := by
          intro p hp
          by_contra h
          obtain ⟨rp, hrp, hmemt⟩ := depCnt_edge h
          rcases (hmem1 p).mp hp with hpD | ⟨d, hd, hr⟩
          · obtain ⟨rp', hrp', hdeps'⟩ := hD p hpD
            rw [hrp] at hrp'
            cases hrp'
            exact htD (hdeps' t hmemt)
          · have h1 : rank p ≤ rank d := reaches_rank_le g rank hrank hr
            have h2 : rank d < rank t := hrank t rule hrule d hd
            have h3 : rank t < rank p := hrank p rp hrp t hmemt
            omega
        refine ⟨insert t D1, ?_, ?_, ?_⟩
        · intro p hp
          rcases Finset.mem_insert.mp hp with rfl | hp1
          · exact ⟨rule, hrule, fun d hd =>
              Finset.mem_insert_of_mem ((hmem1 d).mpr (Or.inr ⟨d, hd, Reaches.refl d⟩))⟩
          · obtain ⟨rp, hrp, hdp⟩ := hD1 p hp1
            exact ⟨rp, hrp, fun d hd => Finset.mem_insert_of_mem (hdp d hd)⟩
        · intro u
          constructor
          · intro hu
            rcases Finset.mem_insert.mp hu with rfl | hu1
            · exact Or.inr (Reaches.refl u)
            · rcases (hmem1 u).mp hu1 with h | ⟨d, hd, hr⟩
              · exact Or.inl h
              · exact Or.inr (Reaches.step hrule hd hr)
          · rintro (hu | hu)
            · exact Finset.mem_insert_of_mem ((hmem1 u).mpr (Or.inl hu))
            · cases hu with
              | refl => exact Finset.mem_insert_self t D1
              | step hr' hd' h' =>
                rw [hrule] at hr'
                cases hr'
                exact Finset.mem_insert_of_mem ((hmem1 u).mpr (Or.inr ⟨_, hd', h'⟩))
        · rw [calculate_trigger_scores_map_inner]
          simp only [memoOf_not_mem repo g rank htD, hrule, heq1, hscomm, hall2]
          rw [setk_memoOf repo g rank D1 t,
            setk_scoresOf repo g rank extra htD1 hext hrule hself hnoedge]

/-! ## The loop over roots -/

theorem processRoots_char (repo : GitRepo) (g : BazelDependencyGraph) (rank : String → Nat)
    (hrank : RankedBy g rank) (fuel : Nat) :
    ∀ (roots : List String) (D : Finset String),
      (∀ r ∈ roots, rank r < fuel ∧ WFt g r) → DownClosed g D →
      ∃ D', DownClosed g D' ∧
        (∀ u, u ∈ D' ↔ u ∈ D ∨ ∃ r ∈ roots, Reaches g r u) ∧
        processRoots repo g fuel roots (memoOf repo g rank D)
            (scoresOf repo g rank D (fun _ => 0)) =
          .ok (memoOf repo g rank D', scoresOf repo g rank D' (fun _ => 0)) := by
  intro roots
  induction roots with
  | nil =>
    intro D _ hD
    exact ⟨D, hD, fun u => by simp, rfl⟩
  | cons r rest ih =>
    intro D hroots hD
    obtain ⟨hrf, hrwf⟩ := hroots r (List.mem_cons_self r rest)
    obtain ⟨D1, hD1, hmem1, heq1⟩ :=
      inner_char repo g rank hrank fuel r D (fun _ => 0) hrf hrwf hD (fun u h => absurd rfl h)
    obtain ⟨D2, hD2, hmem2, heq2⟩ :=
      ih D1 (fun x hx => hroots x (List.mem_cons_of_mem r hx)) hD1
    refine ⟨D2, hD2, ?_, ?_⟩
    · intro u
      rw [hmem2 u]
      constructor
      · rintro (h1 | ⟨e, he, hr⟩)
        · rcases (hmem1 u).mp h1 with h | h
          · exact Or.inl h
          · exact Or.inr ⟨r, List.mem_cons_self r rest, h⟩
        · exact Or.inr ⟨e, List.mem_cons_of_mem r he, hr⟩
      · rintro (h1 | ⟨e, he, hr⟩)
        · exact Or.inl ((hmem1 u).mpr (Or.inl h1))
        · rcases List.mem_cons.mp he with rfl | he'
          · exact Or.inl ((hmem1 u).mpr (Or.inr hr))
          · exact Or.inr ⟨e, he', hr⟩
    · rw [processRoots]
      simp only [heq1]
      exact heq2

theorem processRoots_ne_fuelOut (repo : GitRepo) (g : BazelDependencyGraph)
    (rank : String → Nat) (hrank : RankedBy g rank) (fuel : Nat) :
    ∀ (roots : List String) (m : Memo) (s : Scores), (∀ r ∈ roots, rank r < fuel) →
      processRoots repo g fuel roots m s ≠ .fuelOut := by
  intro roots
  induction roots with
  | nil => intro m s _; simp [processRoots]
  | cons r rest ih =>
    intro m s hroots
    rw [processRoots]
    cases hr : calculate_trigger_scores_map_inner repo g fuel r m s with
    | ok x =>
      obtain ⟨c, m1, s1⟩ := x
      exact ih m1 s1 (fun x hx => hroots x (List.mem_cons_of_mem r hx))
    | err e => simp
    | panicked e => simp
    | fuelOut =>
      exact absurd hr
        (inner_ne_fuelOut repo g rank hrank fuel r m s (hroots r (List.mem_cons_self r rest)))

theorem processRoots_sInv (repo : GitRepo) (g : BazelDependencyGraph) (fuel : Nat) :
    ∀ (roots : List String) (m : Memo) (s : Scores) m' s',
      processRoots repo g fuel roots m s = .ok (m', s') → SInv s → SInv s' := by
  intro roots
  induction roots with
  | nil =>
    intro m s m' s' heq hs
    rw [processRoots] at heq
    cases heq
    exact hs
  | cons r rest ih =>
    intro m s m' s' heq hs
    rw [processRoots] at heq
    cases hr : calculate_trigger_scores_map_inner repo g fuel r m s with
    | ok x =>
      obtain ⟨c, m1, s1⟩ := x
      rw [hr] at heq
      exact ih m1 s1 m' s' heq (inner_sInv repo g fuel r m s c m1 s1 hr hs)
    | err e => rw [hr] at heq; simp at heq
    | panicked e => rw [hr] at heq; simp at heq
    | fuelOut => rw [hr] at heq; simp at heq

theorem mapOverRoots_char (repo : GitRepo) (g : BazelDependencyGraph) (rank : String → Nat)
    (hrank : RankedBy g rank) (fuel : Nat) (roots : List String)
    (hroots : ∀ r ∈ roots, rank r < fuel ∧ WFt g r) :
    ∃ D : Finset String, DownClosed g D ∧
      (∀ u, u ∈ D ↔ ∃ r ∈ roots, Reaches g r u) ∧
      mapOverRoots fuel roots repo g =
        .ok (finalizeScores (scoresOf repo g rank D (fun _ => 0))) := by
  obtain ⟨D, hD, hmem, heq⟩ := processRoots_char repo g rank hrank fuel roots ∅
    hroots (fun p hp => absurd hp (Finset.not_mem_empty p))
  refine ⟨D, hD, ?_, ?_⟩
  · intro u
    rw [hmem u]
    simp
  · rw [mapOverRoots, memoOf_empty repo g rank, scoresOf_empty repo g rank (fun _ => 0), heq]

/-! ## Characterization of the scalar mode -/

theorem mem_listSrc (repo : GitRepo) :
    ∀ (l : List String) (x : String),
      x ∈ listSrc repo l ↔ ∃ sf ∈ l, x ∈ srcContrib repo sf := by
  intro l
  induction l with
  | nil => intro x; simp [listSrc]
  | cons sf rest ih =>
    intro x
    rw [listSrc_cons]
    simp only [Finset.mem_union, ih x, List.mem_cons]
    constructor
    · rintro (h | ⟨y, hy, hx⟩)
      · exact ⟨sf, Or.inl rfl, h⟩
      · exact ⟨y, Or.inr hy, hx⟩
    · rintro ⟨y, (rfl | hy), hx⟩
      · exact Or.inl hx
      · exact Or.inr ⟨y, hy, hx⟩

theorem listSrc_eq_of_mem_iff (repo : GitRepo) {l1 l2 : List String}
    (h : ∀ a, a ∈ l1 ↔ a ∈ l2) : listSrc repo l1 = listSrc repo l2 := by
  apply Finset.ext
  intro x
  rw [mem_listSrc, mem_listSrc]
  constructor
  · rintro ⟨sf, hsf, hx⟩
    exact ⟨sf, (h sf).mp hsf, hx⟩
  · rintro ⟨sf, hsf, hx⟩
    exact ⟨sf, (h sf).mpr hsf, hx⟩

theorem mem_dedup : ∀ (l : List String) (a : String), a ∈ dedup l ↔ a ∈ l := by
  intro l
  induction l with
  | nil => intro a; simp [dedup]
  | cons x xs ih =>
    intro a
    rw [dedup]
    simp only [List.mem_cons, List.mem_filter, ih, ne_eq, decide_not, Bool.not_eq_eq_eq_not,
      Bool.not_false, decide_eq_true_eq]
    constructor
    · rintro (rfl | ⟨h1, _⟩)
      · exact Or.inl rfl
      · exact Or.inr h1
    · rintro (rfl | h)
      · exact Or.inl rfl
      · by_cases hax : a = x
        · exact Or.inl hax
        · exact Or.inr ⟨h, by simp [hax]⟩

theorem listSrc_append (repo : GitRepo) (l1 l2 : List String) :
    listSrc repo (l1 ++ l2) = listSrc repo l1 ∪ listSrc repo l2 := by
  rw [listSrc, List.foldr_append, foldr_union_init]
  rfl

theorem semC_unfold (repo : GitRepo) (g : BazelDependencyGraph) (rank : String → Nat)
    (hrank : RankedBy g rank) {t : String} {rule : Rule} (hrule : rulesGet g t = some rule) :
    semC repo g rank t =
      rule.dep_targets.foldr (fun d s => semC repo g rank d ∪ s) ∅ ∪
        listSrc repo rule.source_files := by
  rw [semC, semCFuel]
  simp only [hrule]
  rw [foldr_union_congr (listSrc repo rule.source_files) rule.dep_targets
    (fun d hd => semCFuel_stable repo g rank hrank (rank t) d (hrank t rule hrule d hd))]
  rw [foldr_union_init]

/-- Contract of the recursive callee of the flattening loop, at rank
bound `n`. -/
def GsfContract (repo : GitRepo) (g : BazelDependencyGraph) (rank : String → Nat) (n : Nat)
    (f : String → RRes (List String)) : Prop :=
  ∀ d, rank d < n → WFt g d →
    ∃ l, f d = .ok l ∧ (∀ sf ∈ l, srcOk sf = true) ∧ listSrc repo l = semC repo g rank d

theorem gsfList_char (repo : GitRepo) (g : BazelDependencyGraph) (rank : String → Nat)
    {n : Nat} {f : String → RRes (List String)} (hf : GsfContract repo g rank n f) :
    ∀ ds : List String, (∀ d ∈ ds, rank d < n ∧ WFt g d) →
      ∃ L, gsfList f ds = .ok L ∧ (∀ sf ∈ L, srcOk sf = true) ∧
        listSrc repo L = ds.foldr (fun d s => semC repo g rank d ∪ s) ∅ := by
  intro ds
  induction ds with
  | nil => intro _; exact ⟨[], rfl, by simp, by simp [listSrc]⟩
  | cons d rest ih =>
    intro hds
    obtain ⟨hdn, hdwf⟩ := hds d (List.mem_cons_self d rest)
    obtain ⟨l, hl, hlok, hlsrc⟩ := hf d hdn hdwf
    obtain ⟨L, hL, hLok, hLsrc⟩ := ih (fun x hx => hds x (List.mem_cons_of_mem d hx))
    refine ⟨l ++ L, ?_, ?_, ?_⟩
    · rw [gsfList]
      simp only [hl, hL]
    · intro sf hsf
      rcases List.mem_append.mp hsf with h | h
      · exact hlok sf h
      · exact hLok sf h
    · rw [listSrc_append, hlsrc, hLsrc, List.foldr_cons]

theorem gsfRaw_char (repo : GitRepo) (g : BazelDependencyGraph) (rank : String → Nat)
    (hrank : RankedBy g rank) :
    ∀ fuel t, rank t < fuel → WFt g t →
      ∃ l, gsfRaw g fuel t = .ok l ∧ (∀ sf ∈ l, srcOk sf = true) ∧
        listSrc repo l = semC repo g rank t := by
  intro fuel
  induction fuel using Nat.strong_induction_on with
  | _ fuel ih =>
    intro t ht hwf
    cases fuel with
    | zero => omega
    | succ n =>
      obtain ⟨rule, hrule, hsrc⟩ := hwf t (Reaches.refl t)
      have hcontract : GsfContract repo g rank n (gsfRaw g n) :=
        fun d hd hdwf => ih n (Nat.lt_succ_self n) d hd hdwf
      have hds : ∀ d ∈ rule.dep_targets, rank d < n ∧ WFt g d := by
        intro d hd
        have hlt : rank d < rank t := hrank t rule hrule d hd
        exact ⟨by omega, wft_step g hwf hrule hd⟩
      obtain ⟨L, hL, hLok, hLsrc⟩ := gsfList_char repo g rank hcontract rule.dep_targets hds
      refine ⟨rule.source_files ++ L, ?_, ?_, ?_⟩
      · rw [gsfRaw]
        simp only [hrule, hL]
      · intro sf hsf
        rcases List.mem_append.mp hsf with h | h
        · exact hsrc sf h
        · exact hLok sf h
      · rw [listSrc_append, hLsrc, semC_unfold repo g rank hrank hrule, Finset.union_comm]

theorem get_source_files_char (repo : GitRepo) (g : BazelDependencyGraph)
    (rank : String → Nat) (hrank : RankedBy g rank) {fuel : Nat} {t : String}
    (ht : rank t < fuel) (hwf : WFt g t) :
    ∃ l, get_source_files fuel g t = .ok l ∧ (∀ sf ∈ l, srcOk sf = true) ∧
      listSrc repo l = semC repo g rank t := by
  obtain ⟨l, hl, hok, hsrc⟩ := gsfRaw_char repo g rank hrank fuel t ht hwf
  refine ⟨dedup l, ?_, ?_, ?_⟩
  · rw [get_source_files]
    simp only [hl]
  · intro sf hsf
    exact hok sf ((mem_dedup l sf).mp hsf)
  · rw [listSrc_eq_of_mem_iff repo (mem_dedup l), hsrc]

theorem calculate_trigger_scores_char (repo : GitRepo) (g : BazelDependencyGraph)
    (rank : String → Nat) (hrank : RankedBy g rank) {fuel : Nat} {target : String}
    (ht : rank target < fuel) (hwf : WFt g target) :
    calculate_trigger_scores fuel target repo g = .ok (semC repo g rank target).card := by
  obtain ⟨l, hl, hok, hsrc⟩ := get_source_files_char repo g rank hrank ht hwf
  rw [calculate_trigger_scores]
  simp only [hl, sourceCommits_of_srcOk repo l ∅ hok]
  rw [Finset.empty_union, hsrc]

/-! ## External labels are inert -/

theorem alookup_map_values {β γ : Type} (F : β → γ) :
    ∀ (l : List (String × β)) (t : String),
      alookup (l.map (fun p => (p.1, F p.2))) t = (alookup l t).map F := by
  intro l
  induction l with
  | nil => intro t; rfl
  | cons p rest ih =>
    intro t
    obtain ⟨k, v⟩ := p
    rw [List.map_cons]
    by_cases hk : k = t
    · simp [alookup, hk]
    · simp [alookup, hk, ih t]

theorem rulesGet_strip_none {g : BazelDependencyGraph} {t : String}
    (h : rulesGet g t = none) : rulesGet (stripExternal g) t = none := by
  rw [rulesGet, stripExternal, alookup_map_values stripRule g.rules_by_label t]
  rw [rulesGet] at h
  rw [h]
  rfl

theorem rulesGet_strip_some {g : BazelDependencyGraph} {t : String} {r : Rule}
    (h : rulesGet g t = some r) : rulesGet (stripExternal g) t = some (stripRule r) := by
  rw [rulesGet, stripExternal, alookup_map_values stripRule g.rules_by_label t]
  rw [rulesGet] at h
  rw [h]
  rfl

theorem sourceCommits_filter (repo : GitRepo) :
    ∀ (files : List String) (acc : Finset String),
      sourceCommits repo (files.filter (fun sf => !strStartsWith sf "@")) acc =
        sourceCommits repo files acc := by
  intro files
  induction files with
  | nil => intro acc; rfl
  | cons sf rest ih =>
    intro acc
    cases hsw : strStartsWith sf "@" with
    | true =>
      have hcond : (!strStartsWith sf "@") = false := by rw [hsw]; rfl
      rw [List.filter_cons, hcond]
      simp only [Bool.false_eq_true, if_false]
      rw [ih acc]
      have hstep : sourceCommits repo (sf :: rest) acc = sourceCommits repo rest (acc ∪ ∅) := by
        rw [sourceCommits, srcStep_of_external repo sf hsw]
      rw [hstep, Finset.union_empty]
    | false =>
      have hcond : (!strStartsWith sf "@") = true := by rw [hsw]; rfl
      rw [List.filter_cons, hcond]
      simp only [if_true]
      rw [sourceCommits, sourceCommits]
      cases hstep : srcStep repo sf with
      | ok c => exact ih (acc ∪ c)
      | err e => rfl
      | panicked e => rfl
      | fuelOut => rfl

theorem inner_strip (repo : GitRepo) (g : BazelDependencyGraph) :
    ∀ fuel t m s,
      calculate_trigger_scores_map_inner repo (stripExternal g) fuel t m s =
        calculate_trigger_scores_map_inner repo g fuel t m s := by
  intro fuel
  induction fuel using Nat.strong_induction_on with
  | _ fuel ih =>
    intro t m s
    cases fuel with
    | zero => rfl
    | succ n =>
      rw [calculate_trigger_scores_map_inner, calculate_trigger_scores_map_inner]
      cases hm : m t with
      | some c => rfl
      | none =>
        cases hr : rulesGet g t with
        | none => rw [rulesGet_strip_none hr]
        | some rule =>
          rw [rulesGet_strip_some hr]
          have hdeq : innerDeps (calculate_trigger_scores_map_inner repo (stripExternal g) n)
              rule.dep_targets m s ∅ =
              innerDeps (calculate_trigger_scores_map_inner repo g n) rule.dep_targets m s ∅ :=
            innerDeps_ext (fun d md sd => ih n (Nat.lt_succ_self n) d md sd)
              rule.dep_targets m s ∅
          have hsrcs : ∀ all, sourceCommits repo (stripRule rule).source_files all =
              sourceCommits repo rule.source_files all :=
            fun all => sourceCommits_filter repo rule.source_files all
          dsimp only [stripRule]
          rw [hdeq]
          split
          · rename_i all m1 s1 heq
            rw [sourceCommits_filter repo rule.source_files all]
          · rfl
          · rfl
          · rfl

theorem processRoots_strip (repo : GitRepo) (g : BazelDependencyGraph) (fuel : Nat) :
    ∀ (roots : List String) (m : Memo) (s : Scores),
      processRoots repo (stripExternal g) fuel roots m s = processRoots repo g fuel roots m s := by
  intro roots
  induction roots with
  | nil => intro m s; rfl
  | cons r rest ih =>
    intro m s
    rw [processRoots, processRoots, inner_strip repo g fuel r m s]
    split
    · rename_i c m1 s1 heq
      exact ih m1 s1
    · rfl
    · rfl
    · rfl

theorem keys_filter_map {β γ : Type} (F : β → γ) (pred : String → Bool) :
    ∀ l : List (String × β),
      ((l.map (fun p => (p.1, F p.2))).filter (fun p => pred p.1)).map (fun p => p.1) =
        (l.filter (fun p => pred p.1)).map (fun p => p.1) := by
  intro l
  induction l with
  | nil => rfl
  | cons p rest ih =>
    obtain ⟨k, v⟩ := p
    rw [List.map_cons, List.filter_cons, List.filter_cons]
    cases hp : pred k with
    | true => simp only [hp, if_true, List.map_cons, ih]
    | false => simp only [hp, Bool.false_eq_true, if_false, ih]

theorem computeRoots_strip (g : BazelDependencyGraph) (target : String) :
    computeRoots (stripExternal g) target = computeRoots g target := by
  rw [computeRoots, computeRoots]
  cases hw : strEndsWith target "..." with
  | false => simp only [hw, Bool.false_eq_true, if_false]
  | true =>
    simp only [hw, if_true]
    cases hlen : decide (strLen target < 4) with
    | true =>
      rw [if_pos (of_decide_eq_true hlen), if_pos (of_decide_eq_true hlen)]
    | false =>
      rw [if_neg (of_decide_eq_false hlen), if_neg (of_decide_eq_false hlen)]
      rw [show (stripExternal g).rules_by_label =
        g.rules_by_label.map (fun p => (p.1, stripRule p.2)) from rfl]
      rw [keys_filter_map stripRule
        (fun k => strStartsWith k (strTake target (strLen target - 4))) g.rules_by_label]

theorem calculate_trigger_scores_map_strip (fuel : Nat) (target : String) (repo : GitRepo)
    (g : BazelDependencyGraph) :
    calculate_trigger_scores_map fuel target repo (stripExternal g) =
      calculate_trigger_scores_map fuel target repo g := by
  rw [calculate_trigger_scores_map, calculate_trigger_scores_map, computeRoots_strip]
  split
  · rename_i roots heq
    rw [mapOverRoots, mapOverRoots, processRoots_strip]
  · rfl
  · rfl
  · rfl

/-- Applies a function to the payload of a successful result. -/
def mapOk {α β : Type} (h : α → β) : RRes α → RRes β
  | .ok a => .ok (h a)
  | .err e => .err e
  | .panicked e => .panicked e
  | .fuelOut => .fuelOut

theorem gsfList_strip {keep : String → Bool}
    {f f' : String → RRes (List String)}
    (hrel : ∀ d, f' d = mapOk (fun l => l.filter keep) (f d)) :
    ∀ ds : List String, gsfList f' ds = mapOk (fun l => l.filter keep) (gsfList f ds) := by
  intro ds
  induction ds with
  | nil => rfl
  | cons d rest ih =>
    rw [gsfList, gsfList, hrel d, ih]
    cases f d with
    | ok l =>
      cases gsfList f rest with
      | ok ls => simp only [mapOk, List.filter_append]
      | err e => rfl
      | panicked e => rfl
      | fuelOut => rfl
    | err e => rfl
    | panicked e => rfl
    | fuelOut => rfl

theorem gsfRaw_strip (g : BazelDependencyGraph) :
    ∀ fuel t, gsfRaw (stripExternal g) fuel t =
      mapOk (fun l => l.filter (fun sf => !strStartsWith sf "@")) (gsfRaw g fuel t) := by
  intro fuel
  induction fuel using Nat.strong_induction_on with
  | _ fuel ih =>
    intro t
    cases fuel with
    | zero => rfl
    | succ n =>
      rw [gsfRaw, gsfRaw]
      cases hr : rulesGet g t with
      | none =>
        rw [rulesGet_strip_none hr]
        rfl
      | some rule =>
        rw [rulesGet_strip_some hr]
        have hlist := gsfList_strip (fun d => ih n (Nat.lt_succ_self n) d) rule.dep_targets
        dsimp only [stripRule]
        rw [hlist]
        cases gsfList (gsfRaw g n) rule.dep_targets with
        | ok ls => simp only [mapOk, List.filter_append]
        | err e => rfl
        | panicked e => rfl
        | fuelOut => rfl

theorem dedup_filter (p : String → Bool) :
    ∀ l : List String, dedup (l.filter p) = (dedup l).filter p := by
  intro l
  induction l with
  | nil => rfl
  | cons x xs ih =>
    rw [List.filter_cons]
    by_cases hp : p x = true
    · rw [if_pos hp, dedup, dedup, ih, List.filter_cons, if_pos hp]
      congr 1
      rw [List.filter_comm]
    · rw [if_neg hp, ih, dedup, List.filter_cons, if_neg hp, List.filter_comm]
      symm
      rw [List.filter_eq_self]
      intro a ha
      have hpa : p a = true := List.of_mem_filter ha
      simp only [ne_eq, decide_eq_true_eq]
      intro hc
      subst hc
      exact hp hpa

theorem calculate_trigger_scores_strip (fuel : Nat) (target : String) (repo : GitRepo)
    (g : BazelDependencyGraph) :
    calculate_trigger_scores fuel target repo (stripExternal g) =
      calculate_trigger_scores fuel target repo g := by
  rw [calculate_trigger_scores, calculate_trigger_scores,
    get_source_files, get_source_files, gsfRaw_strip]
  cases gsfRaw g fuel target with
  | ok l =>
    simp only [mapOk]
    rw [dedup_filter, sourceCommits_filter repo (dedup l) ∅]
  | err e => rfl
  | panicked e => rfl
  | fuelOut => rfl

/-! ## Decidable certificates for concrete instances -/

theorem alookup_mem {β : Type} :
    ∀ {l : List (String × β)} {t : String} {v : β}, alookup l t = some v → (t, v) ∈ l := by
  intro l
  induction l with
  | nil => intro t v h; simp [alookup] at h
  | cons p rest ih =>
    intro t v h
    obtain ⟨k, w⟩ := p
    rw [alookup] at h
    by_cases hk : k = t
    · rw [if_pos hk] at h
      cases h
      subst hk
      exact List.mem_cons_self _ _
    · rw [if_neg hk] at h
      exact List.mem_cons_of_mem _ (ih h)

theorem rankedBy_of_all (g : BazelDependencyGraph) (rank : String → Nat)
    (h : g.rules_by_label.all
      (fun p => p.2.dep_targets.all (fun d => decide (rank d < rank p.1))) = true) :
    RankedBy g rank := by
  intro t r hr d hd
  have hmem : (t, r) ∈ g.rules_by_label := alookup_mem hr
  have h1 := List.all_eq_true.mp h _ hmem
  have h2 := List.all_eq_true.mp h1 d hd
  exact of_decide_eq_true h2

/-- Decidable check that `L` lists targets with rules, parseable source
files, and dependency edges staying inside `L`. -/
def closedListB (g : BazelDependencyGraph) (L : List String) : Bool :=
  L.all (fun u =>
    match rulesGet g u with
    | some r => r.source_files.all srcOk && r.dep_targets.all (fun d => decide (d ∈ L))
    | none => false)

theorem closedListB_spec {g : BazelDependencyGraph} {L : List String}
    (h : closedListB g L = true) :
    ∀ u ∈ L, ∃ r, rulesGet g u = some r ∧ (∀ sf ∈ r.source_files, srcOk sf = true) ∧
      ∀ d ∈ r.dep_targets, d ∈ L := by
  intro u hu
  have h1 := List.all_eq_true.mp h u hu
  cases hr : rulesGet g u with
  | none => rw [hr] at h1; simp at h1
  | some r =>
    rw [hr] at h1
    rw [Bool.and_eq_true] at h1
    exact ⟨r, rfl, fun sf hsf => List.all_eq_true.mp h1.1 sf hsf,
      fun d hd => of_decide_eq_true (List.all_eq_true.mp h1.2 d hd)⟩

theorem reaches_stay {g : BazelDependencyGraph} {L : List String}
    (hcl : ∀ u ∈ L, ∃ r, rulesGet g u = some r ∧ ∀ d ∈ r.dep_targets, d ∈ L) :
    ∀ {t u : String}, Reaches g t u → t ∈ L → u ∈ L := by
  intro t u hr
  induction hr with
  | refl t => exact id
  | step hr' hd' h' ih =>
    intro ht
    obtain ⟨r1, hr1, hdeps⟩ := hcl _ ht
    rw [hr'] at hr1
    cases hr1
    exact ih (hdeps _ hd')

theorem wft_of_closedList {g : BazelDependencyGraph} {L : List String}
    (h : closedListB g L = true) : ∀ t ∈ L, WFt g t := by
  intro t ht u hu
  have hcl := closedListB_spec h
  have huL : u ∈ L :=
    reaches_stay (fun x hx => ⟨(hcl x hx).choose, (hcl x hx).choose_spec.1,
      (hcl x hx).choose_spec.2.2⟩) hu ht
  obtain ⟨r, hr, hsf, _⟩ := hcl u huL
  exact ⟨r, hr, hsf⟩

theorem computeRoots_ne_fuelOut (g : BazelDependencyGraph) (target : String) :
    computeRoots g target ≠ .fuelOut := by
  rw [computeRoots]
  split
  · split
    · simp
    · simp
  · simp

/-! ## Concrete instances -/

/-- The worked example of the specification (§8): `//a:a` depends on
`//b:b`; `//a:a` owns `//p:f1` (changes `c1`, `c2`), `//b:b` owns `//p:f2`
(change `c3`). -/
def exG : BazelDependencyGraph :=
  ⟨[("//a:a", ⟨["//b:b"], ["//p:f1"]⟩), ("//b:b", ⟨[], ["//p:f2"]⟩)]⟩

/-- Change history for the worked example. -/
def exRepo : GitRepo := ⟨[("p/f1", ⟨["c1", "c2"]⟩), ("p/f2", ⟨["c3"]⟩)]⟩

/-- Rank function witnessing acyclicity of `exG`. -/
def exRank : String → Nat := fun t => if t = "//a:a" then 1 else 0

/-- A one-node graph whose only rule depends on itself. -/
def cycG : BazelDependencyGraph := ⟨[("//a:a", ⟨["//a:a"], []⟩)]⟩

/-- A graph whose only rule owns one source-file label with no `:`. -/
def malG : BazelDependencyGraph := ⟨[("//t:t", ⟨[], ["noseparator"]⟩)]⟩

/-- A one-key graph used for the wildcard-prefix counterexample. -/
def wildG : BazelDependencyGraph := ⟨[("//q:x", ⟨[], []⟩)]⟩

theorem exG_ranked : RankedBy exG exRank :=
  rankedBy_of_all exG exRank (by decide)

theorem exG_closed : closedListB exG ["//a:a", "//b:b"] = true := by decide

theorem exG_wft : ∀ t ∈ ["//a:a", "//b:b"], WFt exG t :=
  wft_of_closedList exG_closed

theorem exRank_lt_two : ∀ t, exRank t < 2 := by
  intro t
  unfold exRank
  split
  · decide
  · decide

/-! ## Claims -/

/-- Claim C1: the specification requires a cycle reachable from the root to
fail the run with a cycle-detected error.  The code has no such guard: on
the one-node cyclic graph `cycG`, map mode exhausts every finite recursion
budget (the embedded recursion returns `fuelOut` for every fuel) instead of
returning an error — the Rust original recurses unboundedly. -/
theorem claim_C1_cycle_unbounded :
    ∀ fuel, calculate_trigger_scores_map fuel "//a:a" exRepo cycG = .fuelOut := by
  have hinner : ∀ fuel, calculate_trigger_scores_map_inner exRepo cycG fuel "//a:a"
      (fun _ => none) (fun _ => none) = .fuelOut := by
    intro fuel
    induction fuel with
    | zero => rfl
    | succ n ih =>
      rw [calculate_trigger_scores_map_inner]
      have hrg : rulesGet cycG "//a:a" = some ⟨["//a:a"], []⟩ := by decide
      simp only [hrg, innerDeps, ih]
  intro fuel
  have hcr : computeRoots cycG "//a:a" = .ok ["//a:a"] := by decide
  rw [calculate_trigger_scores_map]
  simp only [hcr, mapOverRoots, processRoots, hinner fuel]

/-- Claim C3 counterexample: for the input `//p...`, the claim says the
roots are the graph keys starting with `//p` (the input minus the trailing
three-character `...` marker); the code removes FOUR characters
(`target[..target.len() - 4]`), so with prefix `//` it selects the key
`//q:x`, which does not start with `//p`. -/
theorem claim_C3_counterexample :
    computeRoots wildG "//p..." = .ok ["//q:x"] ∧
      strStartsWith "//q:x" "//p" = false := by
  constructor
  · decide
  · decide

/-- Claim C3 (amended): for an input ending in `...` and at least four
characters long, the roots are exactly the graph keys starting with the
input minus its last FOUR characters (the `...` marker plus the character
before it); an input shorter than four characters panics; any input not
ending in `...` yields exactly one root, the input itself. -/
theorem claim_C3_amended (g : BazelDependencyGraph) (target : String) :
    (strEndsWith target "..." = true → 4 ≤ strLen target →
      ∃ roots, computeRoots g target = .ok roots ∧
        ∀ k, k ∈ roots ↔ (∃ r, (k, r) ∈ g.rules_by_label) ∧
          strStartsWith k (strTake target (strLen target - 4)) = true) ∧
    (strEndsWith target "..." = false → computeRoots g target = .ok [target]) := by
  constructor
  · intro hw hlen
    rw [computeRoots, if_pos hw, if_neg (Nat.not_lt.mpr hlen)]
    refine ⟨_, rfl, ?_⟩
    intro k
    constructor
    · intro hk
      obtain ⟨p, hp, hpk⟩ := List.mem_map.mp hk
      have h1 := List.mem_filter.mp hp
      subst hpk
      exact ⟨⟨p.2, h1.1⟩, h1.2⟩
    · rintro ⟨⟨r, hr⟩, hpre⟩
      exact List.mem_map.mpr ⟨(k, r), List.mem_filter.mpr ⟨hr, hpre⟩, rfl⟩
  · intro hw
    rw [computeRoots, if_neg (by simp [hw])]

/-- Claim C3 witness: the amended claim at the wildcard input `//p/...`
(prefix `//p`, matching no key of `wildG`) and at the plain input
`//q:x`. -/
theorem claim_C3_witness :
    (∃ roots, computeRoots wildG "//p/..." = .ok roots ∧
      ∀ k, k ∈ roots ↔ (∃ r, (k, r) ∈ wildG.rules_by_label) ∧
        strStartsWith k "//p" = true) ∧
    computeRoots wildG "//q:x" = .ok ["//q:x"] :=
  ⟨(claim_C3_amended wildG "//p/...").1 (by decide) (by decide),
   (claim_C3_amended wildG "//q:x").2 (by decide)⟩

/-- Claim C4 counterexample: on a graph whose root rule owns the
separator-less source label `noseparator`, the run does not surface a
malformed-label `err` to the caller — it aborts with the index-out-of-bounds
panic of `parts[1]`. -/
theorem claim_C4_counterexample :
    calculate_trigger_scores_map 1 "//t:t" exRepo malG =
      .panicked "index out of bounds" := rfl

/-- Claim C4 (amended): a non-external source-file label with no `:`
separator makes the scoring run abort via the index-out-of-bounds panic of
`parts[1]` (not an error value surfaced to the caller), and never produces
a best-effort resolved path. -/
theorem claim_C4_amended (repo : GitRepo) (sf t : String) (fuel : Nat)
    (hext : strStartsWith sf "@" = false)
    (hmal : (splitChars ':' sf.data).length = 1)
    (hnw : strEndsWith t "..." = false) (hfuel : 1 ≤ fuel) :
    calculate_trigger_scores_map fuel t repo ⟨[(t, ⟨[], [sf]⟩)]⟩ =
      .panicked "index out of bounds" := by
  obtain ⟨n, rfl⟩ : ∃ n, fuel = n + 1 := ⟨fuel - 1, by omega⟩
  have hcr : computeRoots ⟨[(t, ⟨[], [sf]⟩)]⟩ t = .ok [t] := by
    rw [computeRoots, if_neg (by simp [hnw])]
  rw [calculate_trigger_scores_map]
  simp only [hcr, mapOverRoots, processRoots]
  rw [calculate_trigger_scores_map_inner]
  have hrg : rulesGet ⟨[(t, ⟨[], [sf]⟩)]⟩ t = some ⟨[], [sf]⟩ := by
    rw [rulesGet]
    show alookup [(t, (⟨[], [sf]⟩ : Rule))] t = some ⟨[], [sf]⟩
    rw [alookup, if_pos rfl]
  have hstep : srcStep repo sf = .panicked "index out of bounds" := by
    rw [srcStep, if_neg (by simp [hext]), if_pos (by omega)]
  simp only [hrg, innerDeps, sourceCommits, hstep]

/-- Claim C4 witness: the amended claim at a concrete separator-less
label. -/
theorem claim_C4_witness :
    calculate_trigger_scores_map 1 "//t:t" ⟨[]⟩ ⟨[("//t:t", ⟨[], ["nosep"]⟩)]⟩ =
      .panicked "index out of bounds" :=
  claim_C4_amended ⟨[]⟩ "nosep" "//t:t" 1 (by decide) (by decide) (by decide) (by decide)

/-- Claim C2: for a target with a well-formed reachable cone, the scalar
result equals the `rebuilds` field computed for the same target as sole
root of map mode over the same graph and history (the scalar
`get_source_files` is modelled from the spec, see its doc comment). -/
theorem claim_C2_scalar_matches_map (fuel : Nat) (target : String) (repo : GitRepo)
    (g : BazelDependencyGraph) (rank : String → Nat) (hrank : RankedBy g rank)
    (hwf : WFt g target) (hnw : strEndsWith target "..." = false)
    (hfuel : rank target < fuel) :
    ∃ n m rec, calculate_trigger_scores fuel target repo g = .ok n ∧
      calculate_trigger_scores_map fuel target repo g = .ok m ∧
      m target = some rec ∧ rec.rebuilds = n := by
  obtain ⟨D, hD, hmem, hmap⟩ := mapOverRoots_char repo g rank hrank fuel [target]
    (by
      intro r hr
      rcases List.mem_cons.mp hr with rfl | h
      · exact ⟨hfuel, hwf⟩
      · exact absurd h (List.not_mem_nil r))
  have hscalar := calculate_trigger_scores_char repo g rank hrank hfuel hwf
  have hcr : computeRoots g target = .ok [target] := by
    rw [computeRoots, if_neg (by simp [hnw])]
  have htD : target ∈ D :=
    (hmem target).mpr ⟨target, List.mem_cons_self target [], Reaches.refl target⟩
  have hm : calculate_trigger_scores_map fuel target repo g =
      .ok (finalizeScores (scoresOf repo g rank D (fun _ => 0))) := by
    rw [calculate_trigger_scores_map]
    simp only [hcr]
    exact hmap
  refine ⟨(semC repo g rank target).card,
    finalizeScores (scoresOf repo g rank D (fun _ => 0)),
    ⟨target, (semC repo g rank target).card, 1 + edgesInto g D target + 0,
      (semC repo g rank target).card * (1 + edgesInto g D target + 0)⟩,
    hscalar, hm, ?_, rfl⟩
  show (scoresOf repo g rank D (fun _ => 0) target).map _ = _
  rw [scoresOf]
  rw [if_pos htD]
  rfl

/-- Claim C2 witness: the worked example, sole root `//a:a`. -/
theorem claim_C2_witness :
    ∃ n m rec, calculate_trigger_scores 2 "//a:a" exRepo exG = .ok n ∧
      calculate_trigger_scores_map 2 "//a:a" exRepo exG = .ok m ∧
      m "//a:a" = some rec ∧ rec.rebuilds = n :=
  claim_C2_scalar_matches_map 2 "//a:a" exRepo exG exRank exG_ranked
    (exG_wft "//a:a" (by decide)) (by decide) (by decide)

/-- Claim C5: in map mode without wildcard expansion, every target of the
reachable cone ends the run with `dependents` equal to one (itself) plus
the total number of dependency edges into it from reachable rules; in
particular a target referenced by `1 + k` edges — duplicates from the same
parent and overlapping paths each counting — ends with
`dependents = 2 + k`. -/
theorem claim_C5_dependents (fuel : Nat) (root : String) (repo : GitRepo)
    (g : BazelDependencyGraph) (rank : String → Nat) (hrank : RankedBy g rank)
    (hwf : WFt g root) (hnw : strEndsWith root "..." = false)
    (hfuel : rank root < fuel) :
    ∃ m D, calculate_trigger_scores_map fuel root repo g = .ok m ∧
      (∀ u, u ∈ D ↔ Reaches g root u) ∧
      ∀ u k, u ∈ D → edgesInto g D u = 1 + k →
        ∃ rec, m u = some rec ∧ rec.dependents = 2 + k := by
  obtain ⟨D, hD, hmem, hmap⟩ := mapOverRoots_char repo g rank hrank fuel [root]
    (by
      intro r hr
      rcases List.mem_cons.mp hr with rfl | h
      · exact ⟨hfuel, hwf⟩
      · exact absurd h (List.not_mem_nil r))
  have hcr : computeRoots g root = .ok [root] := by
    rw [computeRoots, if_neg (by simp [hnw])]
  have hm : calculate_trigger_scores_map fuel root repo g =
      .ok (finalizeScores (scoresOf repo g rank D (fun _ => 0))) := by
    rw [calculate_trigger_scores_map]
    simp only [hcr]
    exact hmap
  refine ⟨finalizeScores (scoresOf repo g rank D (fun _ => 0)), D, hm, ?_, ?_⟩
  · intro u
    rw [hmem u]
    constructor
    · rintro ⟨r, hr, hru⟩
      rcases List.mem_cons.mp hr with rfl | h
      · exact hru
      · exact absurd h (List.not_mem_nil r)
    · intro hru
      exact ⟨root, List.mem_cons_self root [], hru⟩
  · intro u k hu hedges
    refine ⟨⟨u, (semC repo g rank u).card, 1 + edgesInto g D u + 0,
      (semC repo g rank u).card * (1 + edgesInto g D u + 0)⟩, ?_, ?_⟩
    · show (scoresOf repo g rank D (fun _ => 0) u).map _ = _
      rw [scoresOf, if_pos hu]
      rfl
    · show 1 + edgesInto g D u + 0 = 2 + k
      omega

/-- Claim C5 witness: on the worked example, `//b:b` is referenced by
exactly one dependency edge from the reachable cone of `//a:a` and ends
with `dependents = 2`. -/
theorem claim_C5_witness :
    ∃ m, ∃ D : Finset String, calculate_trigger_scores_map 2 "//a:a" exRepo exG = .ok m ∧
      (∀ u, u ∈ D ↔ Reaches exG "//a:a" u) ∧
      ∃ rec, m "//b:b" = some rec ∧ rec.dependents = 2 := by
  obtain ⟨m, D, hm, hmem, hk⟩ := claim_C5_dependents 2 "//a:a" exRepo exG exRank exG_ranked
    (exG_wft "//a:a" (by decide)) (by decide) (by decide)
  have hra : rulesGet exG "//a:a" = some ⟨["//b:b"], ["//p:f1"]⟩ := by decide
  have hbD : "//b:b" ∈ D :=
    (hmem "//b:b").mpr (Reaches.step hra (by decide) (Reaches.refl "//b:b"))
  have hDeq : D = ({"//a:a", "//b:b"} : Finset String) := by
    apply Finset.ext
    intro u
    rw [hmem u]
    constructor
    · intro hr
      have hL : u ∈ ["//a:a", "//b:b"] :=
        reaches_stay
          (fun x hx =>
            ⟨(closedListB_spec exG_closed x hx).choose,
             (closedListB_spec exG_closed x hx).choose_spec.1,
             (closedListB_spec exG_closed x hx).choose_spec.2.2⟩)
          hr (by decide)
      simpa using hL
    · intro hu
      rcases Finset.mem_insert.mp hu with rfl | hu1
      · exact Reaches.refl _
      · have : u = "//b:b" := by simpa using hu1
        subst this
        exact Reaches.step hra (by decide) (Reaches.refl "//b:b")
  have hedges : edgesInto exG D "//b:b" = 1 + 0 := by
    rw [hDeq]
    decide
  obtain ⟨rec, h1, h2⟩ := hk "//b:b" 0 hbD hedges
  exact ⟨m, D, hm, hmem, rec, h1, by omega⟩

/-- Claim C6: after a successful map-mode run every record satisfies
`score = rebuilds * dependents` (the multiplication is the final pass); and
mid-run — after any list of roots has been traversed with the shared
tables, before the final pass — every record still holds `score = 0`. -/
theorem claim_C6_score_product (fuel : Nat) (target : String) (repo : GitRepo)
    (g : BazelDependencyGraph) :
    (∀ m, calculate_trigger_scores_map fuel target repo g = .ok m →
      ∀ u rec, m u = some rec → rec.score = rec.rebuilds * rec.dependents) ∧
    (∀ (roots : List String) m' s',
      processRoots repo g fuel roots (fun _ => none) (fun _ => none) = .ok (m', s') →
      ∀ u rec, s' u = some rec → rec.score = 0) := by
  constructor
  · intro m hm u rec hrec
    rw [calculate_trigger_scores_map] at hm
    cases hcr : computeRoots g target with
    | ok roots =>
      rw [hcr] at hm
      simp only [mapOverRoots] at hm
      cases hpr : processRoots repo g fuel roots (fun _ => none) (fun _ => none) with
      | ok x =>
        obtain ⟨m1, s1⟩ := x
        rw [hpr] at hm
        cases hm
        rw [finalizeScores] at hrec
        cases hs : s1 u with
        | none => rw [hs] at hrec; simp at hrec
        | some t0 =>
          rw [hs] at hrec
          injection hrec with hrec
          subst hrec
          rfl
      | err e => rw [hpr] at hm; simp at hm
      | panicked e => rw [hpr] at hm; simp at hm
      | fuelOut => rw [hpr] at hm; simp at hm
    | err e => rw [hcr] at hm; simp at hm
    | panicked e => rw [hcr] at hm; simp at hm
    | fuelOut => rw [hcr] at hm; simp at hm
  · intro roots m' s' hpr u rec hrec
    have hinv := processRoots_sInv repo g fuel roots _ _ m' s' hpr
      (fun u rec h => absurd h (by simp))
    exact (hinv u rec hrec).1

/-- Claim C6 witness: the worked example, both the final product equation
and the mid-run zero score. -/
theorem claim_C6_witness :
    (∃ m, calculate_trigger_scores_map 2 "//a:a" exRepo exG = .ok m ∧
      ∀ u rec, m u = some rec → rec.score = rec.rebuilds * rec.dependents) ∧
    (∃ m' s', processRoots exRepo exG 2 ["//a:a"] (fun _ => none) (fun _ => none) =
        .ok (m', s') ∧
      ∀ u rec, s' u = some rec → rec.score = 0) :=
  ⟨⟨_, rfl, fun u rec h =>
      (claim_C6_score_product 2 "//a:a" exRepo exG).1 _ rfl u rec h⟩,
   ⟨_, _, rfl, fun u rec h =>
      (claim_C6_score_product 2 "//a:a" exRepo exG).2 ["//a:a"] _ _ rfl u rec h⟩⟩

/-- Claim C7: external `@`-prefixed source-file labels are inert in both
modes — removing every one of them from every rule changes neither the
scalar result nor the map-mode result (so they are never resolved into a
history key and never contribute change identifiers to any `rebuilds`). -/
theorem claim_C7_external_inert (fuel : Nat) (target : String) (repo : GitRepo)
    (g : BazelDependencyGraph) :
    calculate_trigger_scores fuel target repo (stripExternal g) =
      calculate_trigger_scores fuel target repo g ∧
    calculate_trigger_scores_map fuel target repo (stripExternal g) =
      calculate_trigger_scores_map fuel target repo g :=
  ⟨calculate_trigger_scores_strip fuel target repo g,
   calculate_trigger_scores_map_strip fuel target repo g⟩

/-- Claim C8: on a ranked (acyclic) graph, with fuel above every rank, map
mode never exhausts the recursion budget (the Rust recursion terminates),
and every record of a successfully returned map has `rebuilds ≥ 0` and
`dependents ≥ 1`. -/
theorem claim_C8_terminates (fuel : Nat) (target : String) (repo : GitRepo)
    (g : BazelDependencyGraph) (rank : String → Nat) (hrank : RankedBy g rank)
    (hb : ∀ t, rank t < fuel) :
    calculate_trigger_scores_map fuel target repo g ≠ .fuelOut ∧
    (∀ m, calculate_trigger_scores_map fuel target repo g = .ok m →
      ∀ u rec, m u = some rec → 0 ≤ rec.rebuilds ∧ 1 ≤ rec.dependents) := by
  constructor
  · rw [calculate_trigger_scores_map]
    split
    · rename_i roots heq
      rw [mapOverRoots]
      split
      · simp
      · simp
      · simp
      · rename_i heq2
        exact absurd heq2
          (processRoots_ne_fuelOut repo g rank hrank fuel roots _ _ (fun r _ => hb r))
    · simp
    · simp
    · rename_i heq
      exact absurd heq (computeRoots_ne_fuelOut g target)
  · intro m hm u rec hrec
    rw [calculate_trigger_scores_map] at hm
    cases hcr : computeRoots g target with
    | ok roots =>
      rw [hcr] at hm
      simp only [mapOverRoots] at hm
      cases hpr : processRoots repo g fuel roots (fun _ => none) (fun _ => none) with
      | ok x =>
        obtain ⟨m1, s1⟩ := x
        rw [hpr] at hm
        cases hm
        have hinv := processRoots_sInv repo g fuel roots _ _ m1 s1 hpr
          (fun v rv h => absurd h (by simp))
        rw [finalizeScores] at hrec
        cases hs : s1 u with
        | none => rw [hs] at hrec; simp at hrec
        | some t0 =>
          rw [hs] at hrec
          injection hrec with hrec
          subst hrec
          exact ⟨Nat.zero_le _, (hinv u t0 hs).2⟩
      | err e => rw [hpr] at hm; simp at hm
      | panicked e => rw [hpr] at hm; simp at hm
      | fuelOut => rw [hpr] at hm; simp at hm
    | err e => rw [hcr] at hm; simp at hm
    | panicked e => rw [hcr] at hm; simp at hm
    | fuelOut => rw [hcr] at hm; simp at hm

/-- Claim C8 witness: the worked example with its rank certificate. -/
theorem claim_C8_witness :
    calculate_trigger_scores_map 2 "//a:a" exRepo exG ≠ .fuelOut ∧
    (∃ m, calculate_trigger_scores_map 2 "//a:a" exRepo exG = .ok m ∧
      ∀ u rec, m u = some rec → 0 ≤ rec.rebuilds ∧ 1 ≤ rec.dependents) := by
  have h := claim_C8_terminates 2 "//a:a" exRepo exG exRank exG_ranked exRank_lt_two
  exact ⟨h.1, ⟨_, rfl, fun u rec hrec => h.2 _ rfl u rec hrec⟩⟩

/-- Claim C9: for a ranked (acyclic) graph and any two enumerations of the
same set of roots — as produced by wildcard expansion in an arbitrary
order — the shared-state run over the two enumerations returns pointwise
identical result maps: every dependency-edge loop runs only on its rule's
first visit, so each edge contributes exactly one dependents increment
whichever root got there first. -/
theorem claim_C9_order_independent (fuel : Nat) (repo : GitRepo) (g : BazelDependencyGraph)
    (rank : String → Nat) (R1 R2 : List String) (hrank : RankedBy g rank)
    (hwf : ∀ r ∈ R1, WFt g r) (hfuel : ∀ r ∈ R1, rank r < fuel)
    (hmem : ∀ r, r ∈ R1 ↔ r ∈ R2) :
    ∃ m1 m2, mapOverRoots fuel R1 repo g = .ok m1 ∧ mapOverRoots fuel R2 repo g = .ok m2 ∧
      ∀ u, m1 u = m2 u := by
  obtain ⟨D1, hD1, hmem1, heq1⟩ := mapOverRoots_char repo g rank hrank fuel R1
    (fun r hr => ⟨hfuel r hr, hwf r hr⟩)
  obtain ⟨D2, hD2, hmem2, heq2⟩ := mapOverRoots_char repo g rank hrank fuel R2
    (fun r hr => ⟨hfuel r ((hmem r).mpr hr), hwf r ((hmem r).mpr hr)⟩)
  have hDeq : D1 = D2 := by
    apply Finset.ext
    intro u
    rw [hmem1 u, hmem2 u]
    constructor
    · rintro ⟨r, hr, hru⟩
      exact ⟨r, (hmem r).mp hr, hru⟩
    · rintro ⟨r, hr, hru⟩
      exact ⟨r, (hmem r).mpr hr, hru⟩
  subst hDeq
  exact ⟨_, _, heq1, heq2, fun u => rfl⟩

/-- Claim C9 witness: the two enumeration orders of the roots of the worked
example. -/
theorem claim_C9_witness :
    ∃ m1 m2, mapOverRoots 2 ["//a:a", "//b:b"] exRepo exG = .ok m1 ∧
      mapOverRoots 2 ["//b:b", "//a:a"] exRepo exG = .ok m2 ∧
      ∀ u, m1 u = m2 u :=
  claim_C9_order_independent 2 exRepo exG exRank ["//a:a", "//b:b"] ["//b:b", "//a:a"]
    exG_ranked exG_wft (fun r _ => exRank_lt_two r)
    (by
      intro r
      constructor
      · intro h
        rcases List.mem_cons.mp h with rfl | h1
        · exact List.mem_cons_of_mem _ (List.mem_cons_self _ _)
        · rcases List.mem_cons.mp h1 with rfl | h2
          · exact List.mem_cons_self _ _
          · exact absurd h2 (List.not_mem_nil r)
      · intro h
        rcases List.mem_cons.mp h with rfl | h1
        · exact List.mem_cons_of_mem _ (List.mem_cons_self _ _)
        · rcases List.mem_cons.mp h1 with rfl | h2
          · exact List.mem_cons_self _ _
          · exact absurd h2 (List.not_mem_nil r))

/-- Claim C10 counterexample: the source-file label `:` is non-external and
contains a `:`, yet the resolver does not silently resolve it — joining its
two empty segments gives the one-character string `/`, and the Rust
`[2..]` byte slice panics. -/
theorem claim_C10_counterexample :
    srcStep ⟨[]⟩ ":" = .panicked "byte index out of bounds" := by decide

/-- Claim C10 (amended): every non-external source-file label with at least
one `:` whose first two `:`-segments joined with `/` span at least two
characters is silently resolved — the history key is that joined string
with its first two characters unconditionally dropped (extra `:` segments
are discarded, and a package path not starting with `//` is mangled rather
than rejected) — and a map-mode run over a rule holding such a label
succeeds, with `rebuilds` read from that (possibly wrong) key.  (Sole
exception, forced by the counterexample: both segments empty, where the
two-character drop panics.) -/
theorem claim_C10_amended (repo : GitRepo) (sf t : String) (fuel : Nat)
    (hext : strStartsWith sf "@" = false)
    (hts : 2 ≤ (splitChars ':' sf.data).length)
    (hlen : 2 ≤ ((splitChars ':' sf.data).getD 0 [] ++ '/' :: (splitChars ':' sf.data).getD 1 []).length)
    (hnw : strEndsWith t "..." = false) (hfuel : 1 ≤ fuel) :
    srcStep repo sf = .ok (fileCommits repo (String.mk
      (((splitChars ':' sf.data).getD 0 [] ++ '/' :: (splitChars ':' sf.data).getD 1 []).drop 2))) ∧
    ∃ m, calculate_trigger_scores_map fuel t repo ⟨[(t, ⟨[], [sf]⟩)]⟩ = .ok m ∧
      ∃ rec, m t = some rec ∧ rec.rebuilds = (fileCommits repo (String.mk
        (((splitChars ':' sf.data).getD 0 [] ++ '/' :: (splitChars ':' sf.data).getD 1 []).drop 2))).card := by
  have hstep : srcStep repo sf = .ok (fileCommits repo (String.mk
      (((splitChars ':' sf.data).getD 0 [] ++ '/' :: (splitChars ':' sf.data).getD 1 []).drop 2))) := by
    rw [srcStep, if_neg (by simp [hext]), if_neg (Nat.not_lt.mpr hts),
      if_neg (Nat.not_lt.mpr hlen)]
  refine ⟨hstep, ?_⟩
  obtain ⟨n, rfl⟩ : ∃ n, fuel = n + 1 := ⟨fuel - 1, by omega⟩
  have hcr : computeRoots ⟨[(t, ⟨[], [sf]⟩)]⟩ t = .ok [t] := by
    rw [computeRoots, if_neg (by simp [hnw])]
  have hrg : rulesGet ⟨[(t, ⟨[], [sf]⟩)]⟩ t = some ⟨[], [sf]⟩ := by
    rw [rulesGet]
    show alookup [(t, (⟨[], [sf]⟩ : Rule))] t = some ⟨[], [sf]⟩
    rw [alookup, if_pos rfl]
  rw [calculate_trigger_scores_map]
  simp only [hcr, mapOverRoots, processRoots]
  rw [calculate_trigger_scores_map_inner]
  simp only [hrg, innerDeps, sourceCommits, hstep]
  rw [Finset.empty_union]
  refine ⟨_, rfl, ?_⟩
  refine ⟨⟨t, (fileCommits repo (String.mk
      (((splitChars ':' sf.data).getD 0 [] ++ '/' :: (splitChars ':' sf.data).getD 1 []).drop 2))).card, 1,
    (fileCommits repo (String.mk
      (((splitChars ':' sf.data).getD 0 [] ++ '/' :: (splitChars ':' sf.data).getD 1 []).drop 2))).card * 1⟩,
    ?_, rfl⟩
  show (setk (fun _ => none) t _ t).map _ = _
  rw [setk, if_pos rfl]
  rfl

/-- Claim C10 witness: the label `pkg:file` (package path without the `//`
prefix) is silently resolved to the mangled key `g/file` and its history is
counted. -/
theorem claim_C10_witness :
    srcStep ⟨[("g/file", ⟨["c9"]⟩)]⟩ "pkg:file" =
      .ok (fileCommits ⟨[("g/file", ⟨["c9"]⟩)]⟩ "g/file") ∧
    ∃ m, calculate_trigger_scores_map 1 "//t:t" ⟨[("g/file", ⟨["c9"]⟩)]⟩
        ⟨[("//t:t", ⟨[], ["pkg:file"]⟩)]⟩ = .ok m ∧
      ∃ rec, m "//t:t" = some rec ∧
        rec.rebuilds = (fileCommits ⟨[("g/file", ⟨["c9"]⟩)]⟩ "g/file").card :=
  claim_C10_amended ⟨[("g/file", ⟨["c9"]⟩)]⟩ "pkg:file" "//t:t" 1
    (by decide) (by decide) (by decide) (by decide) (by decide)
